import Mathlib

/-!
# Verification of the mini-lsm storage engine

A shallow embedding of the `mini-lsm-starter` crate: byte strings are
`List Nat`, machine integers are `Nat`/`Int` with explicit wrapping where the
source casts, fallible or panicking code returns `Option`, and the engine
state is passed explicitly.  Every definition is translated from the Rust
source (`src/mini-lsm-starter/src/...`); the few places where the crate calls
functions whose definitions are missing from the source tree are modelled
from the specification and marked as such in their doc comments.
-/

set_option maxRecDepth 10000
set_option autoImplicit false

/-- Byte strings: keys and values of the store (`bytes::Bytes` / `&[u8]`). -/
abbrev Bytes := List Nat

/-- Lexicographic comparison of byte strings, the `Ord` instance of `&[u8]`
in Rust (unsigned bytes, shorter prefix is smaller). -/
def cmpBytes : Bytes → Bytes → Ordering
  | [], [] => .eq
  | [], _ :: _ => .lt
  | _ :: _, [] => .gt
  | a :: as, b :: bs =>
    match compare a b with
    | .eq => cmpBytes as bs
    | o => o

/-- `a < b` on byte strings. -/
def bytesLt (a b : Bytes) : Prop := cmpBytes a b = .lt

instance (a b : Bytes) : Decidable (bytesLt a b) := by
  unfold bytesLt; infer_instance

/-- `a ≤ b` on byte strings. -/
def bytesLe (a b : Bytes) : Prop := cmpBytes a b ≠ .gt

instance (a b : Bytes) : Decidable (bytesLe a b) := by
  unfold bytesLe; infer_instance

/-! ## MemTable (`mem_table.rs`)

`MemTable` wraps a concurrent skip list (`crossbeam_skiplist::SkipMap`)
together with an atomic byte counter.  The skip list is an ordered map with
unique keys; we model it as a strictly sorted association list.  `insert`
replaces the value of an existing key. -/

/-- Ordered-map insertion, the effect of `SkipMap::insert`: keeps the list
sorted by key and replaces the value when the key is already present. -/
def insertEntry : List (Bytes × Bytes) → Bytes → Bytes → List (Bytes × Bytes)
  | [], k, v => [(k, v)]
  | (k0, v0) :: rest, k, v =>
    match cmpBytes k k0 with
    | .lt => (k, v) :: (k0, v0) :: rest
    | .eq => (k, v) :: rest
    | .gt => (k0, v0) :: insertEntry rest k v

/-- `MemTable`: the skip-list contents as a sorted association list plus the
atomic size counter (`size` sums `len(key)+len(value)` over every `put`,
overwrites not discounted). -/
structure MemTable where
  entries : List (Bytes × Bytes)
  size : Nat
  deriving Repr, DecidableEq

namespace MemTable

/-- `MemTable::create`. -/
def create : MemTable := ⟨[], 0⟩

/-- `MemTable::get`. -/
def get (m : MemTable) (k : Bytes) : Option Bytes :=
  (m.entries.find? (fun e => cmpBytes e.1 k == .eq)).map (·.2)

/-- `MemTable::put`: bumps the size counter by `key.len() + value.len()` and
inserts into the skip list. -/
def put (m : MemTable) (k v : Bytes) : MemTable :=
  ⟨insertEntry m.entries k v, m.size + k.length + v.length⟩

end MemTable

/-! ## Block codec (`block.rs`, `block/builder.rs`)

The crate is compiled without the `checksum` feature (the feature-gated code
does not even name existing fields), so `CHECKSUM_SIZE = 0` and
`COUNT_SIZE = 2`.  Rust panics (out-of-range slicing, `usize` underflow in
debug builds) are modelled as `none`. -/

/-- Little-endian `u16` serialisation (`put_u16_le`); the argument is
truncated modulo 2^16 exactly as the `as u16` casts in the source. -/
def putU16le (n : Nat) : List Nat := [n % 256, n / 256 % 256]

/-- Read a little-endian `u16` at byte offset `pos` (`u16::from_le_bytes` on
a 2-byte slice); `none` when the slice would run past the end. -/
def readU16At (l : List Nat) (pos : Nat) : Option Nat :=
  match l.drop pos with
  | b0 :: b1 :: _ => some (b0 + 256 * b1)
  | _ => none

/-- `&l[pos..pos+len]`: `none` models the Rust slice-out-of-range panic. -/
def sliceRange (l : List Nat) (pos len : Nat) : Option (List Nat) :=
  if pos + len ≤ l.length then some ((l.drop pos).take len) else none

/-- The `isize → u16` cast `as _` used on `remaining()` in
`BlockBuilder::build`: two's-complement truncation to 16 bits. -/
def intToU16 (i : Int) : Nat := (i % 65536).toNat

/-- The encoded bytes of one entry:
`key_len u16le | key | value_len u16le | value`. -/
def entryBytes (k v : Bytes) : List Nat :=
  putU16le k.length ++ k ++ putU16le v.length ++ v

/-- `Block` (`block.rs`): data section, padding length and offset table. -/
structure Block where
  data : List Nat
  padding : Nat
  offsets : List Nat
  deriving Repr, DecidableEq

/-- `BlockBuilder` (`block/builder.rs`). -/
structure BlockBuilder where
  cap : Nat
  data : List Nat
  offsets : List Nat
  deriving Repr, DecidableEq

namespace BlockBuilder

/-- `BlockBuilder::new`. -/
def new (blockSize : Nat) : BlockBuilder := ⟨blockSize, [], []⟩

/-- `BlockBuilder::remaining`: `cap - (data + 2*n_offsets + COUNT_SIZE)` as
a signed quantity (`isize` in the source). -/
def remaining (b : BlockBuilder) : Int :=
  (b.cap : Int) - ((b.data.length + b.offsets.length * 2 + 2 : Nat) : Int)

/-- `BlockBuilder::add`: refuses when `data.len() + len + meta_len > cap`
where `len = 2 + key.len() + 2 + value.len()` and `meta_len = COUNT_SIZE`;
note that the check counts no offset-table bytes and has no special case for
an empty block.  On success the offset `data.len() as u16` is pushed and the
entry appended. -/
def add (b : BlockBuilder) (k v : Bytes) : Bool × BlockBuilder :=
  let len := 2 + k.length + 2 + v.length
  if b.cap < b.data.length + len + 2 then (false, b)
  else (true, ⟨b.cap, b.data ++ entryBytes k v, b.offsets ++ [b.data.length % 65536]⟩)

/-- `BlockBuilder::is_empty`. -/
def is_empty (b : BlockBuilder) : Bool := b.data.isEmpty

/-- `BlockBuilder::build`: `padding = remaining() as u16` (two's-complement
truncation of a possibly negative `isize`). -/
def build (b : BlockBuilder) : Block := ⟨b.data, intToU16 b.remaining, b.offsets⟩

/-- `BlockBuilder::size`: `cap - remaining as usize`. -/
def size (b : BlockBuilder) : Nat := ((b.cap : Int) - b.remaining).toNat

end BlockBuilder

namespace Block

/-- `Block::encode`: data, `padding` zero bytes, the offsets as `u16le`, and
`num_entries` (`offsets.len() as u16`, wrapped by `putU16le`). -/
def encode (b : Block) : List Nat :=
  b.data ++ List.replicate b.padding 0 ++ b.offsets.flatMap putU16le
    ++ putU16le b.offsets.length

/-- `Block::len`. -/
def len (b : Block) : Nat :=
  b.data.length + b.padding + b.offsets.length * 2 + 2

/-- `Block::slice_at`: reads `key_len` at `pos` and returns
`data[pos+2 .. pos+2+key_len]`. -/
def slice_at (b : Block) (pos : Nat) : Option Bytes := do
  let keyLen ← readU16At b.data pos
  sliceRange b.data (pos + 2) keyLen

/-- The entry-walking loop of `Block::decode`: runs `count` times, each time
reading the key and value length headers at offset `raw.len()` of the full
buffer and extending `raw` by the whole entry. -/
def decodeEntriesLoop (buf : List Nat) : Nat → List Nat → Option (List Nat)
  | 0, raw => some raw
  | n + 1, raw => do
    let keyLen ← readU16At buf raw.length
    let seg1 ← sliceRange buf raw.length (2 + keyLen)
    let raw1 := raw ++ seg1
    let valLen ← readU16At buf raw1.length
    let seg2 ← sliceRange buf raw1.length (2 + valLen)
    decodeEntriesLoop buf n (raw1 ++ seg2)

/-- `off.chunks(2).map(u16::from_le_bytes)`; a trailing odd chunk would make
`try_into` fail (`unwrap` panic). -/
def chunksToU16 : List Nat → Option (List Nat)
  | [] => some []
  | b0 :: b1 :: rest => (chunksToU16 rest).map (fun l => (b0 + 256 * b1) :: l)
  | [_] => none

/-- `Block::decode` (checksum feature disabled): reads `num_entries` from the
tail, walks the entry headers to rebuild the data section, recovers the
offset table from the tail slice, and computes the padding length by
subtraction (a `usize` underflow, i.e. a debug-build panic, is `none`)
truncated to `u16` (`as u16`). -/
def decode (buf : List Nat) : Option Block := do
  if 2 ≤ buf.length then
    let count ← readU16At buf (buf.length - 2)
    let raw ← decodeEntriesLoop buf count []
    if 2 + count * 2 ≤ buf.length then
      let off ← sliceRange buf (buf.length - 2 - count * 2) (count * 2)
      let offsets ← chunksToU16 off
      if raw.length + off.length + 2 ≤ buf.length then
        some ⟨raw, (buf.length - raw.length - off.length - 2) % 65536, offsets⟩
      else none
    else none
  else none

end Block

/-! ## Block iterator (`block/iterator.rs`) -/

/-- `BlockIterator`: an empty `key` means the iterator is invalid. -/
structure BlockIterator where
  block : Block
  key : Bytes
  value : Bytes
  idx : Nat
  deriving Repr, DecidableEq

namespace BlockIterator

/-- `BlockIterator::new`. -/
def new (b : Block) : BlockIterator := ⟨b, [], [], 0⟩

/-- `BlockIterator::is_valid`: `!self.key.is_empty()`. -/
def is_valid (it : BlockIterator) : Bool := !it.key.isEmpty

/-- `BlockIterator::seek_to`: indexes the offset table (panic = `none` when
out of bounds) and loads key and value from the data section. -/
def seek_to (it : BlockIterator) (idx : Nat) : Option BlockIterator := do
  let pos ← it.block.offsets.get? idx
  let k ← it.block.slice_at pos
  let v ← it.block.slice_at (pos + 2 + k.length)
  some ⟨it.block, k, v, idx⟩

/-- `BlockIterator::seek_to_first`. -/
def seek_to_first (it : BlockIterator) : Option BlockIterator := it.seek_to 0

/-- `BlockIterator::next`: at the last entry (`offsets.len() == idx + 1`)
clears the key and resets `idx` to 0; otherwise seeks to `idx + 1`.  Note
that on an already-invalid iterator over a block with at least two entries
this re-seeks to entry 1. -/
def next (it : BlockIterator) : Option BlockIterator :=
  if it.block.offsets.length = it.idx + 1 then
    some ⟨it.block, [], it.value, 0⟩
  else it.seek_to (it.idx + 1)

/-- The binary-search loop of `BlockIterator::seek_to_key` over
`lo < hi`; carries the iterator's `idx` field, which the `Greater` arm
mutates.  Returns `.inl mid` for the early return on `Ordering::Equal` and
`.inr (lo, idx)` when the loop exits.  The `fuel` parameter only bounds the
recursion (each step shrinks `hi - lo`, so any `fuel > hi - lo` behaves
identically to the Rust loop). -/
def seekLoop (b : Block) (key : Bytes) :
    Nat → Nat → Nat → Nat → Option (Sum Nat (Nat × Nat))
  | 0, _, _, _ => none
  | fuel + 1, lo, hi, idx0 =>
    if lo < hi then
      let mid := lo + (hi - lo) / 2
      match b.offsets.get? mid with
      | none => none
      | some pos =>
        match b.slice_at pos with
        | none => none
        | some curr =>
          match cmpBytes curr key with
          | .lt => seekLoop b key fuel (mid + 1) hi idx0
          | .eq => some (.inl mid)
          | .gt => seekLoop b key fuel lo mid mid
    else some (.inr (lo, idx0))

/-- `BlockIterator::seek_to_key`: binary search with `lo = 0`,
`hi = offsets.len() - 1`; afterwards seeks to `lo` when the key there is
`≥ key`, else clears the key (invalid).  On a zero-entry block the final
`offsets[lo]` access panics (`none`). -/
def seek_to_key (it : BlockIterator) (key : Bytes) : Option BlockIterator := do
  match ← seekLoop it.block key (it.block.offsets.length + 1) 0
      (it.block.offsets.length - 1) it.idx with
  | .inl mid => it.seek_to mid
  | .inr (lo, idx) =>
    let pos ← it.block.offsets.get? lo
    let curr ← it.block.slice_at pos
    if bytesLe key curr then it.seek_to lo
    else some ⟨it.block, [], it.value, idx⟩

/-- `BlockIterator::create_and_seek_to_first`. -/
def create_and_seek_to_first (b : Block) : Option BlockIterator :=
  (new b).seek_to_first

/-- `BlockIterator::create_and_seek_to_key`. -/
def create_and_seek_to_key (b : Block) (key : Bytes) : Option BlockIterator :=
  (new b).seek_to_key key

end BlockIterator

/-! ## SST (`table.rs`, `table/builder.rs`)

An `SsTable` owns a file of encoded blocks plus the decoded meta index; we
abstract the file into the list of its data blocks (`read_block i` performs
positional I/O on `[meta[i].offset, meta[i+1].offset)` and decodes — here it
returns the `i`-th block directly, with `none` for the index panic).  The
block cache is transparent (`read_block_cached` falls through to
`read_block` on miss with a single-flight guarantee). -/

/-- `BlockMeta` (`table.rs`). -/
structure BlockMeta where
  offset : Nat
  first_key : Bytes
  deriving Repr, DecidableEq

/-- `SsTable` (`table.rs`). -/
structure SsTable where
  id : Nat
  blocks : List Block
  block_metas : List BlockMeta
  block_meta_offset : Nat
  deriving Repr, DecidableEq

namespace Block

/-- Modelled from the spec: `Block::last` is called by
`SsTable::__find_block_idx` but its definition is missing from the source
tree.  Per the spec ("Inspect the last key of block `q`", §4.2) it returns
the last key of the block, `None` when the block has no entries. -/
def last (b : Block) : Option Bytes := do
  let pos ← b.offsets.getLast?
  b.slice_at pos

end Block

namespace SsTable

/-- `SsTable::num_of_blocks`. -/
def num_of_blocks (t : SsTable) : Nat := t.block_metas.length

/-- `SsTable::read_block`: positional read of the byte range between
consecutive meta offsets, decoded; `none` models the index panic. -/
def read_block (t : SsTable) (i : Nat) : Option Block := t.blocks.get? i

/-- `SsTable::read_block_cached`: cache lookup with single-flight fill,
falling through to `read_block`. -/
def read_block_cached (t : SsTable) (i : Nat) : Option Block := t.read_block i

/-- Models `slice::binary_search_by` over `block_metas`, comparing
`meta.first_key` with the probe key.  For the sorted, duplicate-free meta
tables this crate builds, the std contract determines the result uniquely:
`.ok i` when `first_key[i] = key`, else `.error p` where `p` is the number
of metas with `first_key < key` (the insertion point). -/
def binarySearchMetas (metas : List BlockMeta) (k : Bytes) : Except Nat Nat :=
  match metas.findIdx? (fun m => cmpBytes m.first_key k == .eq) with
  | some i => .ok i
  | none => .error (metas.countP (fun m => cmpBytes m.first_key k == .lt))

/-- `SsTable::__find_block_idx`: `Ok` on an exact first-key match; otherwise
the insertion point `p` is post-processed: `p = n` yields `max(0, p-1)`;
when `first_key[p] > key`, block `max(0, p-1)` is read and its last key
compared with `key` (`x.last() >= Some(key)`, where `None < Some _`),
choosing `max(0, p-1)` on success and `p` otherwise; the final `return p`
arm is dead code kept for fidelity. -/
def findBlockIdxR (t : SsTable) (k : Bytes) : Except Nat Nat :=
  match binarySearchMetas t.block_metas k with
  | .ok i => .ok i
  | .error insert =>
    if insert = t.num_of_blocks then .error (insert - 1)
    else
      match t.block_metas.get? insert with
      | some meta =>
        if cmpBytes meta.first_key k == .gt then
          let q := insert - 1
          let lastOk : Bool :=
            match (t.read_block_cached q).bind Block.last with
            | some lk => cmpBytes k lk != .gt
            | none => false
          if lastOk then .error q else .error insert
        else .error insert
      | none => .error insert

/-- `SsTable::find_block_idx`: `__find_block_idx` with both branches
unwrapped (`unwrap_or_else(identity)`). -/
def find_block_idx (t : SsTable) (k : Bytes) : Nat :=
  match t.findBlockIdxR k with
  | .ok i => i
  | .error i => i

end SsTable

/-! ## SST builder (`table/builder.rs`) -/

/-- `SsTableBuilder`. -/
structure SsTableBuilder where
  meta : List BlockMeta
  builder : BlockBuilder
  blocks : List Block
  block_size : Nat
  offset : Nat
  deriving Repr, DecidableEq

namespace SsTableBuilder

/-- `SsTableBuilder::new`. -/
def new (block_size : Nat) : SsTableBuilder :=
  ⟨[], BlockBuilder.new block_size, [], block_size, 0⟩

/-- Rolling the current block: `mem::replace` the inner builder, `build` the
old one, record its first key (`block.slice_at(0)`, a panic — `none` — when
the block is empty) and cumulative offset as a `BlockMeta`, and append the
block. -/
def rollBlock (s : SsTableBuilder) : Option SsTableBuilder := do
  let block := s.builder.build
  let fk ← block.slice_at 0
  pure ⟨s.meta ++ [⟨s.offset, fk⟩], BlockBuilder.new s.block_size,
    s.blocks ++ [block], s.block_size, s.offset + block.len⟩

/-- `SsTableBuilder::add`: `while !self.builder.add(key, value)` roll the
block and retry.  A second refusal (the entry does not fit an empty builder
either) makes the loop roll the now-empty builder, whose `slice_at(0)`
panics — so the loop is unrolled twice and a second failure is `none`. -/
def add (s : SsTableBuilder) (k v : Bytes) : Option SsTableBuilder :=
  match s.builder.add k v with
  | (true, bb) => some {s with builder := bb}
  | (false, _) => do
    let s1 ← s.rollBlock
    match s1.builder.add k v with
    | (true, bb) => some {s1 with builder := bb}
    | (false, _) => (← s1.rollBlock).rollBlock

/-- `SsTableBuilder::estimated_size`. -/
def estimated_size (s : SsTableBuilder) : Nat :=
  (s.blocks.map Block.len).sum + s.builder.size

/-- `SsTableBuilder::build`: flushes the last non-empty block, concatenates
the encoded blocks (their total length becomes `block_meta_offset`), appends
the meta section and the trailer, and returns the `SsTable` (file I/O
abstracted away; the write itself cannot change the returned table).  The
length of a block's encoding is `Block.len` (theorem `encode_length_eq_len`
below), used here so the offset is computed without materialising the
padding bytes. -/
def build (s : SsTableBuilder) (id : Nat) : Option SsTable := do
  let s1 ← if s.builder.is_empty then pure s else s.rollBlock
  let metaOffset := (s1.blocks.map Block.len).sum
  pure ⟨id, s1.blocks, s1.meta, metaOffset⟩

/-- Modelled from the spec: `SsTableBuilder::export` is called by
`LsmStorage::sync` and `LsmStorage::compact` but its definition is missing
from the source tree.  Per the spec (§4.2, `build(id, cache, path)`) it
finalises the builder into an `SsTable` at the given id, writing the file;
the cache handle and path do not affect the returned table, so we model it
as `build` (named `exportTable` here because `export` is a Lean keyword). -/
def exportTable (s : SsTableBuilder) (id : Nat) : Option SsTable := s.build id

end SsTableBuilder

/-- `MemTable::to_sst`: stream the entries in key order through
`SsTableBuilder::add`. -/
def MemTable.to_sst (m : MemTable) (block_size : Nat) : Option SsTableBuilder :=
  m.entries.foldlM (fun b e => SsTableBuilder.add b e.1 e.2)
    (SsTableBuilder.new block_size)

/-! ## Bounds and the iterator capability set (`iterators.rs`) -/

/-- `std::ops::Bound<Bytes>`. -/
inductive Bnd where
  | unbounded
  | included (k : Bytes)
  | excluded (k : Bytes)
  deriving Repr, DecidableEq

/-- Whether `k` satisfies the lower bound (skip-list range semantics). -/
def lowerOk (lo : Bnd) (k : Bytes) : Bool :=
  match lo with
  | .unbounded => true
  | .included l => cmpBytes l k != .gt
  | .excluded l => cmpBytes l k == .lt

/-- Whether `k` satisfies the upper bound (skip-list range semantics). -/
def upperOk (hi : Bnd) (k : Bytes) : Bool :=
  match hi with
  | .unbounded => true
  | .included h => cmpBytes k h != .gt
  | .excluded h => cmpBytes k h == .lt

/-- The `StorageIterator` trait: `key`, `value`, `is_valid`, `next`.
`next` returns `Option` (`anyhow::Result` plus panics). -/
class StorageIterator (σ : Type) where
  key : σ → Bytes
  value : σ → Bytes
  isValid : σ → Bool
  next : σ → Option σ

/-! ## MemTable iterator (`mem_table.rs`) -/

/-- `MemTableIterator`: the not-yet-visited tail of the skip-list range plus
the current entry (`curr`). -/
structure MemTableIterator where
  curr : Option (Bytes × Bytes)
  rest : List (Bytes × Bytes)
  deriving Repr, DecidableEq

/-- `key()`/`value()` unwrap `curr` (a panic on an invalid iterator, never
reached through the merge machinery, modelled as `[]`). -/
instance : StorageIterator MemTableIterator where
  key it := (it.curr.map (·.1)).getD []
  value it := (it.curr.map (·.2)).getD []
  isValid it := it.curr.isSome
  next it := some ⟨it.rest.head?, it.rest.tail⟩

/-- `MemTable::scan`: captures the in-range entries and primes the iterator
with one `next` (the constructor's `let _ = iter.next()`). -/
def MemTable.scan (m : MemTable) (lo hi : Bnd) : MemTableIterator :=
  let es := m.entries.filter (fun e => lowerOk lo e.1 && upperOk hi e.1)
  ⟨es.head?, es.tail⟩

/-! ## SST iterator (`table/iterator.rs`) -/

/-- `SsTableIterator`: table, current block index, inner block iterator,
stored bounds, and the sticky `in_bounds` flag. -/
structure SsTableIterator where
  table : SsTable
  blk_idx : Nat
  iter : BlockIterator
  lower : Bnd
  upper : Bnd
  in_bounds : Bool
  deriving Repr, DecidableEq

namespace SsTableIterator

/-- `SsTableIterator::create_and_seek_to_first`. -/
def create_and_seek_to_first (t : SsTable) : Option SsTableIterator := do
  let block ← t.read_block 0
  let iter ← BlockIterator.create_and_seek_to_first block
  pure ⟨t, 0, iter, .unbounded, .unbounded, true⟩

/-- `SsTableIterator::create_and_seek_to_key`:
`blk_idx = min(find_block_idx(key), num_of_blocks() - 1)`; with zero blocks
the `usize` subtraction underflows (debug panic, `none`). -/
def create_and_seek_to_key (t : SsTable) (k : Bytes) : Option SsTableIterator :=
  if t.num_of_blocks = 0 then none
  else do
    let blk_idx := min (t.find_block_idx k) (t.num_of_blocks - 1)
    let block ← t.read_block blk_idx
    let iter ← BlockIterator.create_and_seek_to_key block k
    pure ⟨t, blk_idx, iter, .unbounded, .unbounded, true⟩

/-- `SsTableIterator::by_range`: seek per the lower bound (an excluded lower
steps the inner block iterator once past an equal key) and store the upper
bound. -/
def by_range (t : SsTable) (lower upper : Bnd) : Option SsTableIterator := do
  let this ←
    match lower with
    | .included lo => create_and_seek_to_key t lo
    | .excluded lo => do
      let this ← create_and_seek_to_key t lo
      if this.iter.is_valid && this.iter.key == lo then do
        let it2 ← this.iter.next
        pure {this with iter := it2}
      else pure this
    | .unbounded => create_and_seek_to_first t
  pure {this with upper := upper}

/-- `SsTableIterator::next`: advance the inner iterator; while it stays
valid, re-evaluate the upper bound (violation makes `in_bounds` false for
good); on block exhaustion move to the next block's first entry, or mark
out-of-bounds at the last block. -/
def next (s : SsTableIterator) : Option SsTableIterator := do
  let it2 ← s.iter.next
  if it2.is_valid then
    let s2 := {s with iter := it2}
    pure <| match s2.upper with
      | .included hi =>
        if cmpBytes it2.key hi == .gt then {s2 with in_bounds := false} else s2
      | .excluded hi =>
        if cmpBytes it2.key hi != .lt then {s2 with in_bounds := false} else s2
      | .unbounded => s2
  else
    let blk2 := s.blk_idx + 1
    if blk2 = s.table.num_of_blocks then
      pure {s with iter := it2, blk_idx := blk2, in_bounds := false}
    else do
      let block ← s.table.read_block blk2
      let it3 ← BlockIterator.create_and_seek_to_first block
      pure {s with iter := it3, blk_idx := blk2}

end SsTableIterator

instance : StorageIterator SsTableIterator where
  key s := s.iter.key
  value s := s.iter.value
  isValid s := s.in_bounds && s.iter.is_valid
  next := SsTableIterator.next

/-! ## K-way merge iterator (`iterators/merge_iterator.rs`)

The `BinaryHeap<IterWrapper<I>>` orders wrappers by `(key, idx)` reversed,
so `peek`/`pop` yield the element minimal by current key, ties broken by the
smaller source index.  We model the heap as the list of its elements with an
explicit min-extraction. -/

/-- The (strict) order of `IterWrapper`: by current key, then by index
(`partial_cmp` before the `.reverse()`). -/
def wrapLt {σ : Type} [StorageIterator σ] (a b : Nat × σ) : Bool :=
  match cmpBytes (StorageIterator.key a.2) (StorageIterator.key b.2) with
  | .lt => true
  | .gt => false
  | .eq => a.1 < b.1

/-- `BinaryHeap::pop` through the reversed order: extracts the element
minimal by `(key, idx)` and returns the remaining elements. -/
def popMin {σ : Type} [StorageIterator σ] :
    List (Nat × σ) → Option ((Nat × σ) × List (Nat × σ))
  | [] => none
  | x :: xs =>
    match popMin xs with
    | none => some (x, [])
    | some (m, rest) => if wrapLt m x then some (m, x :: rest) else some (x, xs)

/-- `BinaryHeap::peek` through the reversed order. -/
def peekMin {σ : Type} [StorageIterator σ] (l : List (Nat × σ)) :
    Option (Nat × σ) :=
  (popMin l).map (·.1)

/-- `MergeIterator`: the heap contents and the current wrapper. -/
structure MergeIterator (σ : Type) where
  iters : List (Nat × σ)
  current : Option (Nat × σ)

namespace MergeIterator

/-- `MergeIterator::create`: drop invalid iterators, index the remaining
ones in the order supplied (`filter` before `enumerate`), and pop the
minimum into `current`. -/
def create {σ : Type} [StorageIterator σ] (is : List σ) : MergeIterator σ :=
  let heap := (is.filter (fun i => StorageIterator.isValid i)).enum
  match popMin heap with
  | none => ⟨[], none⟩
  | some (c, rest) => ⟨rest, some c⟩

/-- `MergeIterator::is_valid`:
`current.as_ref().map(|x| x.inner_iter.is_valid()) == Some(true)`. -/
def is_valid {σ : Type} [StorageIterator σ] (m : MergeIterator σ) : Bool :=
  match m.current with
  | some (_, it) => StorageIterator.isValid it
  | none => false

/-- `MergeIterator::next`.  The `while` loop pops every heap top whose key
equals the current key, advances it, and pushes it back if still valid;
afterwards the current iterator is advanced (`unwrap`, a panic — `none` —
when `current` is `None`), pushed back if valid, and the new minimum is
popped into `current`.  `fuel` bounds the loop; each iteration removes one
equal-key top, so `iters.length + 1` suffices for duplicate-free sources. -/
def next {σ : Type} [StorageIterator σ] :
    Nat → MergeIterator σ → Option (MergeIterator σ)
  | 0, _ => none
  | fuel + 1, m =>
    let loopGuard : Bool :=
      m.is_valid &&
        match peekMin m.iters, m.current with
        | some x, some c =>
          cmpBytes (StorageIterator.key x.2) (StorageIterator.key c.2) == .eq
        | _, _ => false
    if loopGuard then
      match popMin m.iters with
      | none => none
      | some (x, rest) =>
        match StorageIterator.next x.2 with
        | none => none
        | some x2 =>
          let iters2 :=
            if StorageIterator.isValid x2 then rest ++ [(x.1, x2)] else rest
          next fuel ⟨iters2, m.current⟩
    else
      match m.current with
      | none => none
      | some (ci, cit) =>
        match StorageIterator.next cit with
        | none => none
        | some cit2 =>
          let iters2 :=
            if StorageIterator.isValid cit2 then m.iters ++ [(ci, cit2)]
            else m.iters
          match popMin iters2 with
          | none => some ⟨[], none⟩
          | some (c2, rest2) => some ⟨rest2, some c2⟩

end MergeIterator

/-- `key()`/`value()` unwrap `current` (panic modelled as `[]`). -/
instance {σ : Type} [StorageIterator σ] : StorageIterator (MergeIterator σ) where
  key m := (m.current.map (fun c => StorageIterator.key c.2)).getD []
  value m := (m.current.map (fun c => StorageIterator.value c.2)).getD []
  isValid := MergeIterator.is_valid
  next m := MergeIterator.next (m.iters.length + 1) m

/-! ## Two-way merge iterator (`iterators/two_merge_iterator.rs`) -/

/-- `TwoMergeIterator`: heterogeneous sources `a` and `b` plus the copied
current key/value; an empty `key` means invalid. -/
structure TwoMergeIterator (α β : Type) where
  a : α
  b : β
  key : Bytes
  value : Bytes

namespace TwoMergeIterator

/-- `TwoMergeIterator::next`: with both sides valid, `Less | Equal` copies
from `a` and advances BOTH `a` and `b` (also in the strictly-less case);
`Greater` copies from `b` and advances `b`.  With one side valid, copy from
it and advance it; with neither, clear the key. -/
def next {α β : Type} [StorageIterator α] [StorageIterator β]
    (t : TwoMergeIterator α β) : Option (TwoMergeIterator α β) :=
  if StorageIterator.isValid t.a && StorageIterator.isValid t.b then
    match cmpBytes (StorageIterator.key t.a) (StorageIterator.key t.b) with
    | .gt => do
      let t1 := {t with key := StorageIterator.key t.b,
                        value := StorageIterator.value t.b}
      let b2 ← StorageIterator.next t.b
      pure {t1 with b := b2}
    | _ => do
      let t1 := {t with key := StorageIterator.key t.a,
                        value := StorageIterator.value t.a}
      let a2 ← StorageIterator.next t.a
      let b2 ← StorageIterator.next t.b
      pure {t1 with a := a2, b := b2}
  else if StorageIterator.isValid t.a then do
    let t1 := {t with key := StorageIterator.key t.a,
                      value := StorageIterator.value t.a}
    let a2 ← StorageIterator.next t.a
    pure {t1 with a := a2}
  else if StorageIterator.isValid t.b then do
    let t1 := {t with key := StorageIterator.key t.b,
                      value := StorageIterator.value t.b}
    let b2 ← StorageIterator.next t.b
    pure {t1 with b := b2}
  else
    pure {t with key := []}

/-- `TwoMergeIterator::create`: start from empty key/value and call `next`
once. -/
def create {α β : Type} [StorageIterator α] [StorageIterator β] (a : α)
    (b : β) : Option (TwoMergeIterator α β) :=
  next ⟨a, b, [], []⟩

end TwoMergeIterator

instance {α β : Type} [StorageIterator α] [StorageIterator β] :
    StorageIterator (TwoMergeIterator α β) where
  key t := t.key
  value t := t.value
  isValid t := !t.key.isEmpty
  next := TwoMergeIterator.next

/-! ## LSM iterator and fused iterator (`lsm_iterator.rs`) -/

/-- The inner type of `LsmIterator`:
`TwoMergeIterator<MergeIterator<MemTableIterator>, MergeIterator<SsTableIterator>>`. -/
abbrev LsmIteratorInner :=
  TwoMergeIterator (MergeIterator MemTableIterator) (MergeIterator SsTableIterator)

/-- The tombstone-skipping loop shared by `LsmStorageInner::scan` and
`LsmIterator::next`: `while iter.is_valid() && iter.value().is_empty()`
advance.  `fuel` bounds the loop (it is bounded by the number of remaining
tombstones). -/
def skipEmptyValues : Nat → LsmIteratorInner → Option LsmIteratorInner
  | 0, _ => none
  | fuel + 1, t =>
    if StorageIterator.isValid t && (StorageIterator.value t).isEmpty then do
      let t2 ← TwoMergeIterator.next t
      skipEmptyValues fuel t2
    else some t

/-- `LsmIterator`. -/
structure LsmIterator where
  iter : LsmIteratorInner

/-- `LsmIterator::next`: advance the inner iterator, then skip every entry
whose value is empty. -/
instance : StorageIterator LsmIterator where
  key l := StorageIterator.key l.iter
  value l := StorageIterator.value l.iter
  isValid l := StorageIterator.isValid l.iter
  next l := do
    let t ← TwoMergeIterator.next l.iter
    let t2 ← skipEmptyValues 100 t
    pure ⟨t2⟩

/-- `FusedIterator`: a wrapper whose doc comment promises to "prevent users
from calling `next` when the iterator is invalid" — but whose `next` simply
forwards to the inner iterator with no validity check. -/
structure FusedIterator (ι : Type) where
  iter : ι

instance {ι : Type} [StorageIterator ι] : StorageIterator (FusedIterator ι) where
  key f := StorageIterator.key f.iter
  value f := StorageIterator.value f.iter
  isValid f := StorageIterator.isValid f.iter
  next f := (StorageIterator.next f.iter).map FusedIterator.mk

/-! ## Engine coordinator (`lsm_storage.rs`)

`LsmStorage` holds `Arc<RwLock<Arc<LsmStorageInner>>>`; writers clone the
pointed-to `LsmStorageInner` and mutate the clone.  The clone shares the
`Arc<MemTable>` fields with the installed state, so a `put` through the
clone's memtable is visible in the installed state, whereas mutating the
clone's own `Vec`/`usize` fields (`imm_memtables`, `l0_sstables`,
`next_sst_id`) affects only the clone.  Functions below return the state as
installed in the lock after the call. -/

/-- `BLOCK_SIZE` (`validate_block_size(4 * 1024)` passes: a power of two
that is at least 4096). -/
def BLOCK_SIZE : Nat := 4096

/-- `LsmStorageInner`. -/
structure LsmStorageInner where
  memtable : MemTable
  imm_memtables : List MemTable
  l0_sstables : List SsTable
  levels : List (List SsTable)
  next_sst_id : Nat
  deriving Repr, DecidableEq

namespace LsmStorageInner

/-- `LsmStorageInner::create`. -/
def create : LsmStorageInner := ⟨MemTable.create, [], [], [], 0⟩

/-- The per-SST probe inside `LsmStorageInner::get`:
`sstable.__find_block_idx(key).ok()` keeps only the `Ok` branch (an exact
first-key match) and discards the `Err` (bracketing) branch entirely; on a
hit the block is read and a block iterator seeks to the key, whose value is
returned without checking validity or key equality. -/
def l0Probe (t : SsTable) (k : Bytes) : Option Bytes :=
  match t.findBlockIdxR k with
  | .error _ => none
  | .ok idx => do
    let blk ← t.read_block_cached idx
    let it ← BlockIterator.create_and_seek_to_key blk k
    pure it.value

/-- `LsmStorageInner::get`: active memtable, then immutable memtables
newest-first, then the L0 SSTs newest-first through `l0Probe`; the `levels`
are never consulted. -/
def get (s : LsmStorageInner) (k : Bytes) : Option Bytes :=
  match s.memtable.get k with
  | some v => some v
  | none =>
    match s.imm_memtables.reverse.findSome? (fun m => m.get k) with
    | some v => some v
    | none => s.l0_sstables.reverse.findSome? (fun t => l0Probe t k)

/-- `LsmStorageInner::archive_mem_table`: move the active memtable to the
tail of the immutable list and replace it with a fresh one. -/
def archive_mem_table (s : LsmStorageInner) : LsmStorageInner :=
  {s with imm_memtables := s.imm_memtables ++ [s.memtable],
          memtable := MemTable.create}

/-- `LsmStorageInner::scan`: one memtable iterator for the active memtable
followed by the immutable memtables in stored (earliest-to-latest) order —
note: no `.rev()` — and one bounded SST iterator per L0 SST, again in stored
(earliest-to-latest) order; both merged, joined, and the leading empty
values skipped before wrapping in `LsmIterator` and `FusedIterator`. -/
def scan (s : LsmStorageInner) (lower upper : Bnd) :
    Option (FusedIterator LsmIterator) := do
  let memIters :=
    s.memtable.scan lower upper :: s.imm_memtables.map (fun t => t.scan lower upper)
  let sstIters ← s.l0_sstables.mapM (fun t => SsTableIterator.by_range t lower upper)
  let two ← TwoMergeIterator.create (MergeIterator.create memIters)
    (MergeIterator.create sstIters)
  let two2 ← skipEmptyValues 100 two
  pure ⟨⟨two2⟩⟩

end LsmStorageInner

namespace LsmStorage

/-- `LsmStorage::get`: read the installed snapshot; a found empty
(tombstone) value is reported as not-found. -/
def get (s : LsmStorageInner) (k : Bytes) : Option Bytes :=
  match LsmStorageInner.get s k with
  | some v => if v.isEmpty then none else some v
  | none => none

/-- `LsmStorage::put`: asserts the value, then the key, is non-empty
(assertion failure = `none`), writes through the shared memtable, and sends
a flush signal when the memtable byte counter exceeds 1 000 000 after the
write.  Returns the installed state and whether a signal was sent. -/
def put (s : LsmStorageInner) (k v : Bytes) :
    Option (LsmStorageInner × Bool) :=
  if v.isEmpty then none
  else if k.isEmpty then none
  else
    let mem := s.memtable.put k v
    some ({s with memtable := mem}, decide (1000000 < mem.size))

/-- `LsmStorage::delete`: writes an empty value through the shared memtable
with no validation of the key and never touches the flush channel (the
`Bool` is the signal, always `false`). -/
def delete (s : LsmStorageInner) (k : Bytes) : LsmStorageInner × Bool :=
  ({s with memtable := s.memtable.put k []}, false)

/-- The local state built by `LsmStorage::sync` inside the write lock: the
clone of the installed state with the memtable archived, the SST built from
the archived memtable via `to_sst(BLOCK_SIZE)` and `export`ed under
`next_sst_id` (file `{sst_id}.sst`), appended to L0, and `next_sst_id`
incremented. -/
def syncLocalClone (s : LsmStorageInner) : Option LsmStorageInner := do
  let nextId := s.next_sst_id
  let inner := s.archive_mem_table
  let lastMem ← inner.imm_memtables.getLast?
  let builder ← lastMem.to_sst BLOCK_SIZE
  let sstable ← builder.exportTable nextId
  pure {inner with l0_sstables := inner.l0_sstables ++ [sstable],
                   next_sst_id := nextId + 1}

/-- `LsmStorage::sync`: clones the guarded state, mutates the clone (see
`syncLocalClone`) and writes the SST file, but never stores the clone back
through the guard (`*guard = Arc::new(inner)` is absent), so the installed
state — the first component — is the input unchanged; the second component
is the mutated clone that is dropped when the function returns. -/
def sync (s : LsmStorageInner) : LsmStorageInner × Option LsmStorageInner :=
  (s, syncLocalClone s)

/-- `LsmStorage::scan`: delegates to the snapshot's scan. -/
def scan (s : LsmStorageInner) (lower upper : Bnd) :
    Option (FusedIterator LsmIterator) :=
  LsmStorageInner.scan s lower upper

end LsmStorage

/-- Collect the stream of an iterator: the (key, value) pairs visited until
`is_valid` turns false (`none` on fuel exhaustion or an inner panic).  A
verification harness, not part of the source. -/
def collectIter {ι : Type} [StorageIterator ι] : Nat → ι → Option (List (Bytes × Bytes))
  | 0, _ => none
  | fuel + 1, it =>
    if StorageIterator.isValid it then do
      let it2 ← StorageIterator.next it
      let rest ← collectIter fuel it2
      pure ((StorageIterator.key it, StorageIterator.value it) :: rest)
    else pure []

/-! ## Canonical well-formed blocks

A block as produced by `BlockBuilder` from a list of entries: the data
section is the concatenation of the encoded entries and the offset table is
the running byte offset of each entry.  `padding` is a parameter (the
iterator and the index never read it). -/

/-- The running entry offsets starting at `acc`. -/
def entryOffsets : List (Bytes × Bytes) → Nat → List Nat
  | [], _ => []
  | e :: es, acc => acc :: entryOffsets es (acc + (entryBytes e.1 e.2).length)

/-- The data section built from `es`. -/
def entriesData (es : List (Bytes × Bytes)) : List Nat :=
  es.flatMap (fun e => entryBytes e.1 e.2)

/-- The block holding exactly the entries `es` in order. -/
def blockOfEntries (es : List (Bytes × Bytes)) (padding : Nat) : Block :=
  ⟨entriesData es, padding, entryOffsets es 0⟩

/-- Folding `BlockBuilder::add` over a list of entries, conjoining the
accept flags (the shape of `MemTable::to_sst` restricted to one block). -/
def addList (b : BlockBuilder) : List (Bytes × Bytes) → Bool × BlockBuilder
  | [] => (true, b)
  | e :: es =>
    let r := b.add e.1 e.2
    let rest := addList r.2 es
    (r.1 && rest.1, rest.2)

/-- Fixture: a block built with duplicate keys `"a", "a", "b"` (the
builder does not reject unsorted or duplicate adds). -/
def blkDup : Block :=
  ((((BlockBuilder.new 64).add [97] [49]).2.add [97] [50]).2.add [98] [49]).2.build

/-- Fixture: a zero-entry block. -/
def blkEmpty : Block := (BlockBuilder.new 16).build

/-! ## SST well-formedness package and fixtures (claim C7) -/

/-- Shared well-formedness package for an SST built from a sorted batch
partitioned into non-empty blocks. -/
structure SstWF (ess : List (List (Bytes × Bytes))) (t : SsTable) : Prop where
  hne : ∀ es ∈ ess, es ≠ []
  hlens : ∀ es ∈ ess, ∀ e ∈ es, e.1.length < 65536 ∧ e.2.length < 65536
  hsortIn : ∀ es ∈ ess, es.Pairwise (fun e1 e2 => bytesLt e1.1 e2.1)
  hsortX : ess.Pairwise (fun es1 es2 => ∀ e1 ∈ es1, ∀ e2 ∈ es2, bytesLt e1.1 e2.1)
  hblocks : ∃ ps : List Nat, ps.length = ess.length
      ∧ t.blocks = List.zipWith blockOfEntries ess ps
  hmetas : t.block_metas.map BlockMeta.first_key
      = ess.map (fun es => ((es.head?.map (fun e => e.1)).getD []))


/-- Two-block sorted batch: keys `a`,`b` in block 0 and `d` in block 1. -/
def essC7 : List (List (Bytes × Bytes)) :=
  [[([97], [49]), ([98], [50])], [([100], [52])]]

/-- SST over `essC7` as built by the table builder: canonical blocks plus
a meta table recording each block's first key. -/
def sstC7 : SsTable :=
  { id := 0
    blocks := List.zipWith blockOfEntries essC7 [0, 0]
    block_metas := [⟨0, [97]⟩, ⟨30, [100]⟩]
    block_meta_offset := 60 }

/-! ## Order lemmas for `cmpBytes` -/

theorem cmpBytes_self (a : Bytes) : cmpBytes a a = .eq := by
  induction a with
  | nil => rfl
  | cons x xs ih => simp [cmpBytes, Nat.compare_eq_eq.mpr rfl, ih]

theorem eq_of_cmpBytes_eq : ∀ {a b : Bytes}, cmpBytes a b = .eq → a = b := by
  intro a
  induction a with
  | nil => intro b h; cases b <;> simp_all [cmpBytes]
  | cons x xs ih =>
    intro b h
    cases b with
    | nil => simp [cmpBytes] at h
    | cons y ys =>
      simp only [cmpBytes] at h
      rcases hc : compare x y with _ | _ | _ <;> rw [hc] at h
      · exact absurd h (by simp)
      · have hx : x = y := Nat.compare_eq_eq.mp hc
        have := ih h
        simp [hx, this]
      · exact absurd h (by simp)

theorem cmpBytes_swap : ∀ (a b : Bytes), (cmpBytes a b).swap = cmpBytes b a := by
  intro a
  induction a with
  | nil => intro b; cases b <;> rfl
  | cons x xs ih =>
    intro b
    cases b with
    | nil => rfl
    | cons y ys =>
      simp only [cmpBytes]
      rcases hc : compare x y with _ | _ | _
      · have : compare y x = .gt := by
          rw [Nat.compare_eq_gt]; exact Nat.compare_eq_lt.mp hc
        simp [this, Ordering.swap]
      · have hx : x = y := Nat.compare_eq_eq.mp hc
        have : compare y x = .eq := by rw [Nat.compare_eq_eq, hx]
        simp [this, ih]
      · have : compare y x = .lt := by
          rw [Nat.compare_eq_lt]; exact Nat.compare_eq_gt.mp hc
        simp [this, Ordering.swap]

theorem cmpBytes_gt_iff_lt {a b : Bytes} :
    cmpBytes a b = .gt ↔ cmpBytes b a = .lt := by
  constructor
  · intro h
    have := cmpBytes_swap a b
    rw [h] at this
    exact this.symm
  · intro h
    have := cmpBytes_swap b a
    rw [h] at this
    rcases hc : cmpBytes a b with _ | _ | _ <;> rw [hc] at this <;> simp_all [Ordering.swap]

theorem cmpBytes_lt_trans : ∀ {a b c : Bytes},
    cmpBytes a b = .lt → cmpBytes b c = .lt → cmpBytes a c = .lt := by
  intro a
  induction a with
  | nil =>
    intro b c hab hbc
    cases b with
    | nil => simp [cmpBytes] at hab
    | cons y ys => cases c with
      | nil => simp [cmpBytes] at hbc
      | cons z zs => rfl
  | cons x xs ih =>
    intro b c hab hbc
    cases b with
    | nil => simp [cmpBytes] at hab
    | cons y ys =>
      cases c with
      | nil => simp [cmpBytes] at hbc
      | cons z zs =>
        simp only [cmpBytes] at hab hbc ⊢
        rcases hxy : compare x y with _ | _ | _ <;> rw [hxy] at hab <;>
          rcases hyz : compare y z with _ | _ | _ <;> rw [hyz] at hbc <;>
            try simp_all
        · have : compare x z = .lt := by
            rw [Nat.compare_eq_lt]
            exact Nat.lt_trans (Nat.compare_eq_lt.mp hxy) (Nat.compare_eq_lt.mp hyz)
          simp [this]
        · have hy : y = z := Nat.compare_eq_eq.mp hyz
          rw [← hy, hxy]
        · have hx : x = y := Nat.compare_eq_eq.mp hxy
          rw [hx, hyz]
        · have hx : x = y := Nat.compare_eq_eq.mp hxy
          rw [hx, hyz]
          exact ih hab hbc

theorem cmpBytes_lt_of_lt_of_ne_gt {a b c : Bytes}
    (hab : cmpBytes a b = .lt) (hbc : cmpBytes b c ≠ .gt) :
    cmpBytes a c = .lt := by
  rcases h : cmpBytes b c with _ | _ | _
  · exact cmpBytes_lt_trans hab h
  · rw [eq_of_cmpBytes_eq h] at hab; exact hab
  · exact absurd h hbc

theorem cmpBytes_lt_of_ne_gt_of_lt {a b c : Bytes}
    (hab : cmpBytes a b ≠ .gt) (hbc : cmpBytes b c = .lt) :
    cmpBytes a c = .lt := by
  rcases h : cmpBytes a b with _ | _ | _
  · exact cmpBytes_lt_trans h hbc
  · rw [eq_of_cmpBytes_eq h]; exact hbc
  · exact absurd h hab

theorem cmpBytes_lt_irrefl (a : Bytes) : cmpBytes a a ≠ .lt := by
  simp [cmpBytes_self]

theorem cmpBytes_lt_asymm {a b : Bytes} (h : cmpBytes a b = .lt) :
    cmpBytes b a ≠ .lt := by
  intro h2
  exact cmpBytes_lt_irrefl a (cmpBytes_lt_trans h h2)

/-! ## Lookup after insertion -/

theorem find_insertEntry_self (es : List (Bytes × Bytes)) (k v : Bytes) :
    (insertEntry es k v).find? (fun e => cmpBytes e.1 k == .eq) = some (k, v) := by
  induction es with
  | nil =>
    simp only [insertEntry]
    exact List.find?_cons_of_pos _ (by simp only [cmpBytes_self]; decide)
  | cons e rest ih =>
    obtain ⟨k0, v0⟩ := e
    rcases h : cmpBytes k k0 with _ | _ | _ <;>
      simp only [insertEntry, h]
    · exact List.find?_cons_of_pos _ (by simp only [cmpBytes_self]; decide)
    · exact List.find?_cons_of_pos _ (by simp only [cmpBytes_self]; decide)
    · have hne : cmpBytes k0 k = .lt := cmpBytes_gt_iff_lt.mp h
      rw [List.find?_cons_of_neg _ (by simp only [hne]; decide)]
      exact ih

theorem memtable_get_put (m : MemTable) (k v : Bytes) :
    (m.put k v).get k = some v := by
  simp [MemTable.get, MemTable.put, find_insertEntry_self]

/-! ## Auxiliary length lemma for `Block.encode` -/

theorem length_flatMap_putU16le (l : List Nat) :
    (l.flatMap putU16le).length = 2 * l.length := by
  induction l with
  | nil => rfl
  | cons x xs ih => simp [List.flatMap_cons, putU16le, ih]; ring

theorem encode_length (b : Block) :
    b.encode.length = b.data.length + b.padding + 2 * b.offsets.length + 2 := by
  unfold Block.encode
  rw [List.length_append, List.length_append, List.length_append,
    length_flatMap_putU16le]
  simp [putU16le]

theorem encode_length_eq_len (b : Block) : b.encode.length = b.len := by
  rw [encode_length, Block.len]
  ring

/-! ## Claim theorems -/

/-- C10: for every state and key, `delete` succeeds (also for the empty
key), inserts an empty-valued (tombstone) entry with no validation, and
never sends a flush signal; `put` panics exactly on an empty key or empty
value, and when it succeeds it signals the flush worker exactly when the
memtable's byte counter exceeds the 1 000 000 threshold after the write. -/
theorem delete_unvalidated_put_validated (s : LsmStorageInner) (k v : Bytes) :
    (LsmStorage.delete s k).2 = false
    ∧ (LsmStorage.delete s k).1.memtable.get k = some []
    ∧ (LsmStorage.put s k v = none ↔ v = [] ∨ k = [])
    ∧ ((LsmStorage.put s k v).map Prod.snd
        = if v = [] ∨ k = [] then none
          else some (decide (1000000 < (s.memtable.put k v).size))) := by
  refine ⟨rfl, memtable_get_put s.memtable k [], ?_, ?_⟩ <;>
    · by_cases hv : v = [] <;> by_cases hk : k = [] <;>
        simp [LsmStorage.put, hv, hk, List.isEmpty_iff]

/-- Fixture: a memtable holding `("a","1")` and `("b","2")` and the SST the
engine builds from it (`to_sst(BLOCK_SIZE)` then `export`). -/
def memAB : MemTable := (MemTable.create.put [97] [49]).put [98] [50]

def sstAB : SsTable :=
  ((memAB.to_sst BLOCK_SIZE).bind (fun b => b.exportTable 0)).getD ⟨0, [], [], 0⟩

def stC1 : LsmStorageInner := ⟨MemTable.create, [], [sstAB], [], 1⟩

/-- C1 (falsified): in the state whose single L0 SST holds `("a","1")` and
`("b","2")` in one block, `get("b")` returns nothing — the L0 probe keeps
only the `Ok` branch of `__find_block_idx` (`.ok()`), i.e. it finds a key
only when it equals some block's first key — while `get("a")` (a first key)
succeeds; the entry `("b","2")` is nevertheless present in the SST. -/
theorem get_misses_l0_non_first_key :
    ((memAB.to_sst BLOCK_SIZE).bind (fun b => b.exportTable 0) = some sstAB)
    ∧ (sstAB.blocks.head?.bind (fun blk => blk.slice_at 6) = some [98])
    ∧ (sstAB.blocks.head?.bind (fun blk => blk.slice_at 9) = some [50])
    ∧ LsmStorage.get stC1 [98] = none
    ∧ LsmStorage.get stC1 [97] = some [49] := by decide

/-- Fixture: a state whose active memtable holds `("a","1")`. -/
def stC2 : LsmStorageInner :=
  ⟨MemTable.create.put [97] [49], [], [], [], 0⟩

/-- C2 (falsified): `sync` never installs its mutated clone — for every
state the installed state after `sync` is the input unchanged — while the
dropped clone (second component) does carry the claimed shape: the archived
memtable at the tail of the immutable list, the new SST (id `next_sst_id`)
appended to L0, and `next_sst_id` incremented. -/
theorem sync_installs_nothing :
    (∀ s : LsmStorageInner, (LsmStorage.sync s).1 = s)
    ∧ ((LsmStorage.sync stC2).2.map
        (fun c => (c.imm_memtables, c.l0_sstables.map SsTable.id,
                   c.next_sst_id, c.memtable))
        = some ([stC2.memtable], [0], 1, MemTable.create)) := by
  exact ⟨fun _ => rfl, by decide⟩

/-- Fixture: a state with two immutable memtables both holding key `"k"`:
the earlier one with value `"1"`, the later (newer) one with value `"2"`. -/
def stC3 : LsmStorageInner :=
  ⟨MemTable.create, [MemTable.create.put [107] [49], MemTable.create.put [107] [50]],
    [], [], 0⟩

/-- C3 (falsified): `scan` feeds the immutable memtables to the merge
iterator in stored (oldest-first) order without reversing, and the merge
iterator prefers the smaller index on key ties — so the scan yields the
OLDEST immutable memtable's value `"1"` for `"k"`, although the newest
layer containing `"k"` (the last immutable memtable) holds `"2"`. -/
theorem scan_prefers_oldest_layer :
    ((LsmStorage.scan stC3 .unbounded .unbounded).bind (collectIter 10)
      = some [([107], [49])])
    ∧ (stC3.imm_memtables.getLast?.map (fun m => m.get [107])
        = some (some [50])) := by decide

/-- Fixture: capacity 30 with four accepted `("a","b")` entries (6 data
bytes each); after the fourth add the data section plus offset table plus
count is 34 bytes, so `remaining` is negative. -/
def bbC4 : BlockBuilder :=
  (((((BlockBuilder.new 30).add [97] [98]).2.add [97] [98]).2.add
      [97] [98]).2.add [97] [98]).2

/-- The four accept/refuse flags of adding `("a","b")` four times to a
capacity-30 builder. -/
def bbC4Flags : List Bool :=
  let r1 := (BlockBuilder.new 30).add [97] [98]
  let r2 := r1.2.add [97] [98]
  let r3 := r2.2.add [97] [98]
  let r4 := r3.2.add [97] [98]
  [r1.1, r2.1, r3.1, r4.1]

/-- C4 (falsified): all four adds are accepted (the size check ignores the
offset table), yet `build` computes `padding = remaining() as u16` on the
negative remaining `-4`, wrapping to 65532, and the block encodes to 65566
bytes instead of the capacity 30. -/
theorem encoded_block_exceeds_capacity :
    bbC4Flags = [true, true, true, true]
    ∧ bbC4.remaining = -4
    ∧ bbC4.build.padding = 65532
    ∧ bbC4.build.encode.length = 65566
    ∧ bbC4.build.encode.length ≠ 30 := by
  refine ⟨by decide, by decide, by decide, ?_, ?_⟩ <;> rw [encode_length] <;> decide

/-- Fixture: a block with the two entries `("a","1")` and `("b","2")`. -/
def blkC6 : Block :=
  (((BlockBuilder.new 32).add [97] [49]).2.add [98] [50]).2.build

/-- Fixture: the iterator over `blkC6` run off the end (`seek_to_first`,
then two `next` calls). -/
def iterOffEnd : Option BlockIterator := do
  let i0 ← BlockIterator.create_and_seek_to_first blkC6
  let i1 ← i0.next
  i1.next

/-- Fixture: a fused wrapper over an invalid memtable iterator whose
underlying range still has an entry ahead. -/
def fusedC6 : FusedIterator MemTableIterator := ⟨⟨none, [([97], [49])]⟩⟩

/-- C6 (falsified): invalidity is not absorbing.  A `BlockIterator` that ran
off the end of a two-entry block is invalid, but one more `next` re-seeks to
entry 1 and makes it valid again (its `next` resets `idx` to 0 on
invalidation, and the `offsets.len() == idx + 1` test then fails); and
`FusedIterator::next` forwards unconditionally to the wrapped iterator —
on an invalid wrapped iterator it is not a no-op and can turn it valid. -/
theorem invalidity_not_absorbing :
    (iterOffEnd.map BlockIterator.is_valid = some false)
    ∧ ((iterOffEnd.bind BlockIterator.next).map BlockIterator.is_valid
        = some true)
    ∧ ((iterOffEnd.bind BlockIterator.next).map BlockIterator.key
        = some [98])
    ∧ StorageIterator.isValid fusedC6 = false
    ∧ ((StorageIterator.next fusedC6).map
        (fun f => StorageIterator.isValid f) = some true) := by decide

/-- C5 counterexample: with capacity 8 and a currently EMPTY builder, the
first entry `("aaa","bbb")` (10 data bytes) is refused — there is no
unconditional acceptance of the first entry — and `SsTableBuilder::add` of
that entry to a fresh builder with block size 8 panics (rolls an empty
block and calls `slice_at(0)` on it) instead of producing a block. -/
theorem first_add_not_unconditional :
    (BlockBuilder.new 8).data = []
    ∧ ((BlockBuilder.new 8).add [97, 97, 97] [98, 98, 98]).1 = false
    ∧ (SsTableBuilder.new 8).add [97, 97, 97] [98, 98, 98] = none := by decide

/-- C5 (amended): `BlockBuilder::add` accepts exactly when
`data_used + (2 + key_len + 2 + value_len) + 2 ≤ cap` — the offset-table
term `2*n_entries` of the claim is not part of the check, there is no CRC
term in this build, and there is no empty-block special case; consequently
`SsTableBuilder::add` panics (`none`) on a fresh builder exactly when the
entry cannot fit an empty block. -/
theorem add_acceptance_criterion (b : BlockBuilder) (k v : Bytes) (c : Nat) :
    ((b.add k v).1 = true
      ↔ b.data.length + (2 + k.length + 2 + v.length) + 2 ≤ b.cap)
    ∧ ((SsTableBuilder.new c).add k v = none
      ↔ c < (2 + k.length + 2 + v.length) + 2) := by
  constructor
  · unfold BlockBuilder.add
    by_cases h : b.cap < b.data.length + (2 + k.length + 2 + v.length) + 2 <;>
      simp [h] <;> omega
  · unfold SsTableBuilder.add SsTableBuilder.new BlockBuilder.add
    by_cases h : c < 0 + (2 + k.length + 2 + v.length) + 2
    · rw [if_pos (by simp [BlockBuilder.new]; omega)]
      simp [SsTableBuilder.rollBlock, BlockBuilder.build, BlockBuilder.new,
        Block.slice_at, readU16At]
      omega
    · rw [if_neg (by simp [BlockBuilder.new]; omega)]
      simp
      omega

/-! ## Reading entries back from a canonical block -/

theorem entryBytes_length (k v : Bytes) :
    (entryBytes k v).length = 4 + k.length + v.length := by
  simp [entryBytes, putU16le]
  ring

theorem readU16At_append (pre l : List Nat) :
    readU16At (pre ++ l) pre.length = readU16At l 0 := by
  unfold readU16At
  rw [List.drop_left, List.drop_zero]

theorem readU16At_putU16le (m : Nat) (r : List Nat) (hm : m < 65536) :
    readU16At (putU16le m ++ r) 0 = some m := by
  unfold readU16At putU16le
  simp only [List.cons_append, List.drop_zero]
  congr 1
  omega

theorem sliceRange_append (pre l : List Nat) (len : Nat) (h : len ≤ l.length) :
    sliceRange (pre ++ l) pre.length len = some (l.take len) := by
  unfold sliceRange
  rw [if_pos (by simp; omega), List.drop_left]

/-- Reading one entry out of the data section: the key at the entry's start
offset and the value right after the key. -/
theorem slice_entry (b : Block) (d0 rest k v : List Nat)
    (hd : b.data = d0 ++ entryBytes k v ++ rest)
    (hk : k.length < 65536) (hv : v.length < 65536) :
    b.slice_at d0.length = some k
    ∧ b.slice_at (d0.length + 2 + k.length) = some v := by
  have hfull : b.data
      = d0 ++ (putU16le k.length ++ (k ++ (putU16le v.length ++ (v ++ rest)))) := by
    simp [hd, entryBytes]
  have h1 : readU16At b.data d0.length = some k.length := by
    rw [hfull, readU16At_append d0, readU16At_putU16le _ _ hk]
  have h2 : sliceRange b.data (d0.length + 2) k.length = some k := by
    have hsplit : b.data
        = (d0 ++ putU16le k.length) ++ (k ++ (putU16le v.length ++ (v ++ rest))) := by
      simp [hfull]
    have hlen : (d0 ++ putU16le k.length).length = d0.length + 2 := by
      simp [putU16le]
    rw [hsplit, ← hlen, sliceRange_append _ _ _ (by simp)]
    rw [show (k ++ (putU16le v.length ++ (v ++ rest))).take k.length = k from
      List.take_left k _]
  have h3 : readU16At b.data (d0.length + 2 + k.length) = some v.length := by
    have hsplit : b.data
        = (d0 ++ putU16le k.length ++ k) ++ (putU16le v.length ++ (v ++ rest)) := by
      simp [hfull]
    have hlen : (d0 ++ putU16le k.length ++ k).length = d0.length + 2 + k.length := by
      simp [putU16le]; ring
    rw [hsplit, ← hlen, readU16At_append, readU16At_putU16le _ _ hv]
  have h4 : sliceRange b.data (d0.length + 2 + k.length + 2) v.length = some v := by
    have hsplit : b.data
        = (d0 ++ putU16le k.length ++ k ++ putU16le v.length) ++ (v ++ rest) := by
      simp [hfull]
    have hlen : (d0 ++ putU16le k.length ++ k ++ putU16le v.length).length
        = d0.length + 2 + k.length + 2 := by
      simp [putU16le]; ring
    rw [hsplit, ← hlen, sliceRange_append _ _ _ (by simp)]
    rw [show (v ++ rest).take v.length = v from List.take_left v rest]
  refine ⟨?_, ?_⟩
  · simp [Block.slice_at, h1, h2]
  · simp [Block.slice_at, h3, h4]

/-- Reading back any entry of a data section shaped
`d0 ++ entriesData es ++ rest`, with the offsets table starting at
`d0.length`: the offset of entry `i`, its key, and its value. -/
theorem read_entry_core (es : List (Bytes × Bytes)) :
    ∀ (b : Block) (d0 rest : List Nat),
      b.data = d0 ++ entriesData es ++ rest →
      (∀ e ∈ es, e.1.length < 65536 ∧ e.2.length < 65536) →
      ∀ i (hi : i < es.length),
        (entryOffsets es d0.length).get? i
          = some (d0.length + (entriesData (es.take i)).length)
        ∧ b.slice_at (d0.length + (entriesData (es.take i)).length)
          = some (es.get ⟨i, hi⟩).1
        ∧ b.slice_at (d0.length + (entriesData (es.take i)).length + 2
            + (es.get ⟨i, hi⟩).1.length)
          = some (es.get ⟨i, hi⟩).2 := by
  induction es with
  | nil => intro b d0 rest hd hlens i hi; exact absurd hi (by simp)
  | cons e tl ih =>
    intro b d0 rest hd hlens i hi
    have hdata : b.data = d0 ++ entryBytes e.1 e.2 ++ (entriesData tl ++ rest) := by
      simp [hd, entriesData]
    have hke : e.1.length < 65536 := (hlens e (by simp)).1
    have hve : e.2.length < 65536 := (hlens e (by simp)).2
    cases i with
    | zero =>
      refine ⟨by simp [entryOffsets, entriesData], ?_, ?_⟩
      · have := (slice_entry b d0 (entriesData tl ++ rest) e.1 e.2 hdata hke hve).1
        simpa [entriesData] using this
      · have := (slice_entry b d0 (entriesData tl ++ rest) e.1 e.2 hdata hke hve).2
        simpa [entriesData] using this
    | succ j =>
      have hj : j < tl.length := by simpa using hi
      have hd2 : b.data = (d0 ++ entryBytes e.1 e.2) ++ entriesData tl ++ rest := by
        simp [hdata]
      have hlens2 : ∀ x ∈ tl, x.1.length < 65536 ∧ x.2.length < 65536 :=
        fun x hx => hlens x (by simp [hx])
      have := ih b (d0 ++ entryBytes e.1 e.2) rest hd2 hlens2 j hj
      have hlen0 : (d0 ++ entryBytes e.1 e.2).length
          = d0.length + (entryBytes e.1 e.2).length := by simp
      have hpref : (entriesData ((e :: tl).take (j + 1))).length
          = (entryBytes e.1 e.2).length + (entriesData (tl.take j)).length := by
        simp [entriesData]
      refine ⟨?_, ?_, ?_⟩
      · have h0 := this.1
        rw [hlen0] at h0
        simp only [entryOffsets, List.get?_cons_succ]
        rw [h0, hpref]
        congr 1
        omega
      · have h1 := this.2.1
        rw [hlen0] at h1
        rw [show d0.length + (entriesData ((e :: tl).take (j + 1))).length
            = d0.length + (entryBytes e.1 e.2).length + (entriesData (tl.take j)).length
            by rw [hpref]; ring]
        simpa using h1
      · have h2 := this.2.2
        rw [hlen0] at h2
        rw [show d0.length + (entriesData ((e :: tl).take (j + 1))).length
            = d0.length + (entryBytes e.1 e.2).length + (entriesData (tl.take j)).length
            by rw [hpref]; ring]
        simpa using h2

theorem entryOffsets_length (es : List (Bytes × Bytes)) (acc : Nat) :
    (entryOffsets es acc).length = es.length := by
  induction es generalizing acc with
  | nil => rfl
  | cons e tl ih => simp [entryOffsets, ih]

/-- Entry `i` of a canonical block: its offset, key and value. -/
theorem read_entry_at (es : List (Bytes × Bytes)) (p : Nat)
    (hlens : ∀ e ∈ es, e.1.length < 65536 ∧ e.2.length < 65536)
    (i : Nat) (hi : i < es.length) :
    ∃ pos, (blockOfEntries es p).offsets.get? i = some pos
      ∧ (blockOfEntries es p).slice_at pos = some (es.get ⟨i, hi⟩).1
      ∧ (blockOfEntries es p).slice_at (pos + 2 + (es.get ⟨i, hi⟩).1.length)
        = some (es.get ⟨i, hi⟩).2 := by
  have hd : (blockOfEntries es p).data = [] ++ entriesData es ++ [] := by
    simp [blockOfEntries]
  have := read_entry_core es (blockOfEntries es p) [] [] hd hlens i hi
  refine ⟨(entriesData (es.take i)).length, ?_, ?_, ?_⟩
  · have h0 := this.1
    simpa [blockOfEntries] using h0
  · simpa using this.2.1
  · simpa using this.2.2

/-- `seek_to i` on a canonical block positions at entry `i`. -/
theorem seek_to_entry (es : List (Bytes × Bytes)) (p : Nat)
    (hlens : ∀ e ∈ es, e.1.length < 65536 ∧ e.2.length < 65536)
    (it : BlockIterator) (hb : it.block = blockOfEntries es p)
    (i : Nat) (hi : i < es.length) :
    it.seek_to i
      = some ⟨blockOfEntries es p, (es.get ⟨i, hi⟩).1, (es.get ⟨i, hi⟩).2, i⟩ := by
  obtain ⟨pos, h1, h2, h3⟩ := read_entry_at es p hlens i hi
  rw [List.get?_eq_getElem?] at h1
  rw [List.get_eq_getElem] at h2 h3
  simp [BlockIterator.seek_to, hb, h1, h2, h3]

/-- Case analysis of the `seek_to_key` binary-search loop on a canonical
block with strictly sorted keys: it either returns early on an exact match,
or exits at a position `lo2` with every key before `lo2` strictly below the
probe and every key after `lo2` strictly above it; moreover the exit
position is either the initial upper bound `n - 1` or a position whose key
is strictly above the probe. -/
theorem seekLoop_cases (es : List (Bytes × Bytes)) (p : Nat) (key : Bytes)
    (hlens : ∀ e ∈ es, e.1.length < 65536 ∧ e.2.length < 65536)
    (hsorted : ∀ i j (hi2 : i < es.length) (hj : j < es.length), i < j →
      cmpBytes (es.get ⟨i, hi2⟩).1 (es.get ⟨j, hj⟩).1 = .lt) :
    ∀ (fuel lo hi idx0 : Nat) (hhi : hi < es.length),
      lo ≤ hi → hi - lo < fuel →
      (∀ i (h : i < es.length), i < lo → cmpBytes (es.get ⟨i, h⟩).1 key = .lt) →
      (∀ j (h : j < es.length), hi < j → cmpBytes key (es.get ⟨j, h⟩).1 = .lt) →
      (hi = es.length - 1 ∨ cmpBytes key (es.get ⟨hi, hhi⟩).1 = .lt) →
      (∃ m, ∃ (hm : m < es.length),
          BlockIterator.seekLoop (blockOfEntries es p) key fuel lo hi idx0
            = some (Sum.inl m)
          ∧ cmpBytes (es.get ⟨m, hm⟩).1 key = .eq)
      ∨ (∃ lo2 idx2, ∃ (hl : lo2 < es.length),
          BlockIterator.seekLoop (blockOfEntries es p) key fuel lo hi idx0
            = some (Sum.inr (lo2, idx2))
          ∧ (∀ i (h : i < es.length), i < lo2 →
              cmpBytes (es.get ⟨i, h⟩).1 key = .lt)
          ∧ (∀ j (h : j < es.length), lo2 < j →
              cmpBytes key (es.get ⟨j, h⟩).1 = .lt)
          ∧ (lo2 = es.length - 1 ∨ cmpBytes key (es.get ⟨lo2, hl⟩).1 = .lt)) := by
  intro fuel
  induction fuel with
  | zero => intro lo hi idx0 hhi hlohi hfuel _ _ _; omega
  | succ fuel ih =>
    intro lo hi idx0 hhi hlohi hfuel hinvL hinvR hprop
    by_cases hlt : lo < hi
    case neg =>
      right
      have hlohi2 : lo = hi := by omega
      subst hlohi2
      refine ⟨lo, idx0, hhi, ?_, hinvL,
        fun j h hj => hinvR j h (by omega), hprop⟩
      rw [BlockIterator.seekLoop, if_neg hlt]
    case pos =>
      set mid := lo + (hi - lo) / 2 with hmid
      have hmidlt : mid < hi := by omega
      have hmidge : lo ≤ mid := by omega
      have hmidn : mid < es.length := by omega
      obtain ⟨pos, h1, h2, _⟩ := read_entry_at es p hlens mid hmidn
      rcases hcmp : cmpBytes (es.get ⟨mid, hmidn⟩).1 key with _ | _ | _
      · -- Less: lo := mid + 1
        have hstep : BlockIterator.seekLoop (blockOfEntries es p) key (fuel + 1) lo hi idx0
            = BlockIterator.seekLoop (blockOfEntries es p) key fuel (mid + 1) hi idx0 := by
          rw [BlockIterator.seekLoop, if_pos hlt]
          simp only [← hmid, h1, h2, hcmp]
        rw [hstep]
        refine ih (mid + 1) hi idx0 hhi (by omega) (by omega) ?_ hinvR hprop
        intro i h hile
        rcases Nat.lt_or_ge i lo with hcase | hcase
        · exact hinvL i h hcase
        · rcases Nat.lt_or_ge i mid with hc2 | hc2
          · exact cmpBytes_lt_trans (hsorted i mid h hmidn hc2) hcmp
          · have : i = mid := by omega
            subst this
            exact hcmp
      · -- Equal: early return
        left
        refine ⟨mid, hmidn, ?_, hcmp⟩
        rw [BlockIterator.seekLoop, if_pos hlt]
        simp only [← hmid, h1, h2, hcmp]
      · -- Greater: hi := mid
        have hstep : BlockIterator.seekLoop (blockOfEntries es p) key (fuel + 1) lo hi idx0
            = BlockIterator.seekLoop (blockOfEntries es p) key fuel lo mid mid := by
          rw [BlockIterator.seekLoop, if_pos hlt]
          simp only [← hmid, h1, h2, hcmp]
        rw [hstep]
        have hkm : cmpBytes key (es.get ⟨mid, hmidn⟩).1 = .lt :=
          cmpBytes_gt_iff_lt.mp hcmp
        refine ih lo mid mid hmidn (by omega) (by omega) hinvL ?_ (Or.inr hkm)
        intro j h hj
        rcases Nat.lt_or_ge hi j with hcase | hcase
        · exact hinvR j h hcase
        · rcases Nat.lt_or_ge mid j with hc2 | hc2
          · exact cmpBytes_lt_trans hkm (hsorted mid j hmidn h hc2)
          · omega

/-- C8 (amended): on a block holding at least one entry, with strictly
ascending non-empty keys, `seek_to_key(k)` positions the iterator at the
first entry whose key is `≥ k` (valid), and leaves it invalid when every
key in the block is `< k`.  (On a zero-entry block the seek panics, and
with duplicate keys the returned equal entry need not be the first — see
the counterexample.) -/
theorem seek_to_key_lower_bound (es : List (Bytes × Bytes)) (p : Nat) (key : Bytes)
    (hlens : ∀ e ∈ es, e.1.length < 65536 ∧ e.2.length < 65536)
    (hkeys : ∀ e ∈ es, e.1 ≠ [])
    (hsorted : ∀ i j (hi2 : i < es.length) (hj : j < es.length), i < j →
      cmpBytes (es.get ⟨i, hi2⟩).1 (es.get ⟨j, hj⟩).1 = .lt) :
    (∀ i (hi : i < es.length),
        bytesLe key (es.get ⟨i, hi⟩).1 →
        (∀ i2 (h2 : i2 < es.length), i2 < i →
          cmpBytes (es.get ⟨i2, h2⟩).1 key = .lt) →
        ∃ it, BlockIterator.create_and_seek_to_key (blockOfEntries es p) key
            = some it
          ∧ it.key = (es.get ⟨i, hi⟩).1 ∧ it.value = (es.get ⟨i, hi⟩).2
          ∧ it.idx = i ∧ it.is_valid = true)
    ∧ (es ≠ [] →
        (∀ i (hi : i < es.length), cmpBytes (es.get ⟨i, hi⟩).1 key = .lt) →
        ∃ it, BlockIterator.create_and_seek_to_key (blockOfEntries es p) key
            = some it
          ∧ it.is_valid = false) := by
  have hofflen : (blockOfEntries es p).offsets.length = es.length := by
    simp [blockOfEntries, entryOffsets_length]
  constructor
  · intro i hi hge hfirst
    have hne : es ≠ [] := by
      intro h; subst h; exact absurd hi (by simp)
    have hn1 : 0 < es.length := List.length_pos.mpr hne
    have hcases := seekLoop_cases es p key hlens hsorted (es.length + 1) 0
      (es.length - 1) 0 (by omega) (by omega) (by omega)
      (by intro i2 h2 h0; omega) (by intro j h hj; omega) (Or.inl rfl)
    rcases hcases with ⟨m, hm, hloop, hcmp⟩ | ⟨lo2, idx2, hl, hloop, hinvL, hinvR, hprop⟩
    · -- early exact match: m must be i
      have hmi : m = i := by
        rcases Nat.lt_trichotomy m i with hc | hc | hc
        · have := hfirst m hm hc
          rw [hcmp] at this
          exact absurd this (by simp)
        · exact hc
        · have hlt2 : cmpBytes (es.get ⟨i, hi⟩).1 (es.get ⟨m, hm⟩).1 = .lt :=
            hsorted i m hi hm hc
          have hkeq : (es.get ⟨m, hm⟩).1 = key := eq_of_cmpBytes_eq hcmp
          rw [hkeq] at hlt2
          exact absurd (cmpBytes_gt_iff_lt.mpr hlt2) hge
      subst hmi
      have hseek := seek_to_entry es p hlens (BlockIterator.new (blockOfEntries es p))
        rfl m hm
      refine ⟨⟨blockOfEntries es p, (es.get ⟨m, hm⟩).1, (es.get ⟨m, hm⟩).2, m⟩,
        ?_, rfl, rfl, rfl, ?_⟩
      · unfold BlockIterator.create_and_seek_to_key BlockIterator.seek_to_key
        simp only [BlockIterator.new, hofflen, hloop, Option.pure_def, Option.bind_eq_bind, Option.some_bind]
        simpa using hseek
      · have hk := hkeys (es.get ⟨m, hm⟩) (es.get_mem m hm)
        rw [List.get_eq_getElem] at hk
        simp [BlockIterator.is_valid, List.isEmpty_iff, hk]
    · -- loop exit at lo2: the `≥` test must succeed and lo2 = i
      obtain ⟨pos, h1, h2, _⟩ := read_entry_at es p hlens lo2 hl
      have hble : bytesLe key (es.get ⟨lo2, hl⟩).1 := by
        by_contra hnot
        have hgt : cmpBytes key (es.get ⟨lo2, hl⟩).1 = .gt := by
          rcases h : cmpBytes key (es.get ⟨lo2, hl⟩).1 with _ | _ | _
          · exact absurd (by rw [bytesLe, h]; simp) hnot
          · exact absurd (by rw [bytesLe, h]; simp) hnot
          · rfl
        rcases hprop with hlast | hlt2
        · -- lo2 = n-1 and ks_lo2 < key: every key < key, contradicting hge
          rcases Nat.lt_trichotomy i lo2 with hc | hc | hc
          · exact absurd (cmpBytes_gt_iff_lt.mpr (hinvL i hi hc)) hge
          · subst hc; exact absurd hgt (by rw [bytesLe] at hge; exact hge)
          · omega
        · rw [hlt2] at hgt; exact absurd hgt (by simp)
      have hlo2i : lo2 = i := by
        rcases Nat.lt_trichotomy i lo2 with hc | hc | hc
        · exact absurd (cmpBytes_gt_iff_lt.mpr (hinvL i hi hc)) hge
        · omega
        · have := hfirst lo2 hl hc
          exact absurd (cmpBytes_gt_iff_lt.mpr this) hble
      subst hlo2i
      have hseek := seek_to_entry es p hlens (BlockIterator.new (blockOfEntries es p))
        rfl lo2 hl
      refine ⟨⟨blockOfEntries es p, (es.get ⟨lo2, hl⟩).1, (es.get ⟨lo2, hl⟩).2, lo2⟩,
        ?_, rfl, rfl, rfl, ?_⟩
      · unfold BlockIterator.create_and_seek_to_key BlockIterator.seek_to_key
        simp only [BlockIterator.new, hofflen, hloop, Option.pure_def, Option.bind_eq_bind, Option.some_bind]
        rw [h1]
        simp only [Option.some_bind]
        rw [h2]
        simp only [Option.some_bind, if_pos hble]
        simpa using hseek
      · have hk := hkeys (es.get ⟨lo2, hl⟩) (es.get_mem lo2 hl)
        rw [List.get_eq_getElem] at hk
        simp [BlockIterator.is_valid, List.isEmpty_iff, hk]
  · intro hne hall
    have hn1 : 0 < es.length := List.length_pos.mpr hne
    have hcases := seekLoop_cases es p key hlens hsorted (es.length + 1) 0
      (es.length - 1) 0 (by omega) (by omega) (by omega)
      (by intro i2 h2 h0; omega) (by intro j h hj; omega) (Or.inl rfl)
    rcases hcases with ⟨m, hm, hloop, hcmp⟩ | ⟨lo2, idx2, hl, hloop, hinvL, hinvR, hprop⟩
    · rw [hall m hm] at hcmp
      exact absurd hcmp (by simp)
    · obtain ⟨pos, h1, h2, _⟩ := read_entry_at es p hlens lo2 hl
      have hnot : ¬ bytesLe key (es.get ⟨lo2, hl⟩).1 := by
        have hgt : cmpBytes key (es.get ⟨lo2, hl⟩).1 = .gt :=
          cmpBytes_gt_iff_lt.mpr (hall lo2 hl)
        rw [List.get_eq_getElem] at hgt
        rw [bytesLe]
        simp [hgt]
      refine ⟨⟨blockOfEntries es p, [], [], idx2⟩, ?_, rfl⟩
      unfold BlockIterator.create_and_seek_to_key BlockIterator.seek_to_key
      simp only [BlockIterator.new, hofflen, hloop, Option.pure_def, Option.bind_eq_bind, Option.some_bind]
      rw [h1]
      simp only [Option.some_bind]
      rw [h2]
      simp only [Option.some_bind, if_neg hnot]

/-- C8 counterexample: on the block with entries keyed `"a", "a", "b"`,
`seek_to_key("a")` positions at index 1 even though the first equal key is
at index 0 (binary search returns on any `Equal`, not the first); and on a
zero-entry block both `seek_to_key` and `seek_to_first` panic (the final
`offsets[lo]` access is out of bounds) instead of merely reporting
invalidity. -/
theorem seek_to_key_not_first_equal :
    ((BlockIterator.create_and_seek_to_key blkDup [97]).map
        (fun it => it.idx) = some 1)
    ∧ blkDup.slice_at 0 = some [97]
    ∧ blkDup.offsets.length = 3
    ∧ BlockIterator.create_and_seek_to_key blkEmpty [97] = none
    ∧ BlockIterator.create_and_seek_to_first blkEmpty = none
    ∧ blkEmpty.offsets = [] := by decide

/-- Witness for `seek_to_key_lower_bound` at the two-entry block
`[("a","1"), ("b","2")]` probed with `"b"`. -/
theorem seek_to_key_lower_bound_witness :
    ((BlockIterator.create_and_seek_to_key
        (blockOfEntries [([97], [49]), ([98], [50])] 0) [98]).map
      (fun it => (it.key, it.value, it.idx, it.is_valid)))
      = some ([98], [50], 1, true) := by
  obtain ⟨it, heq, h1, h2, h3, h4⟩ :=
    (seek_to_key_lower_bound [([97], [49]), ([98], [50])] 0 [98]
      (by decide) (by decide)
      (by
        intro i j hi2 hj hij
        have h2i : i < 2 := by simpa using hi2
        have h2j : j < 2 := by simpa using hj
        interval_cases i <;> interval_cases j <;> first | omega | rfl)).1
      1 (by decide) (by decide)
      (by
        intro i2 h2 hlt
        have h2i : i2 < 2 := by simpa using h2
        interval_cases i2 <;> first | omega | rfl)
  rw [heq]
  simp [h1, h2, h3, h4]

/-! ## Characterizing the meta binary search -/

theorem countP_boundary {α : Type} (pred : α → Bool) :
    ∀ (l : List α) (m : Nat), m ≤ l.length →
      (∀ i (hi : i < l.length), pred (l.get ⟨i, hi⟩) = true ↔ i < m) →
      l.countP pred = m := by
  intro l
  induction l with
  | nil =>
    intro m hm _
    simp only [List.length_nil, Nat.le_zero] at hm
    simp [hm]
  | cons a tl ih =>
    intro m hm h
    rcases m with _ | m2
    · have ha : pred a = false := by
        have := h 0 (by simp)
        simpa using this
      have htl : tl.countP pred = 0 := by
        refine ih 0 (Nat.zero_le _) ?_
        intro i hi
        have := h (i + 1) (by simp; omega)
        simpa using this
      rw [List.countP_cons, ha, htl]
      simp
    · have ha : pred a = true := by
        have := h 0 (by simp)
        simpa using this
      have htl : tl.countP pred = m2 := by
        refine ih m2 (by simp at hm; omega) ?_
        intro i hi
        have := h (i + 1) (by simp; omega)
        simpa [Nat.succ_lt_succ_iff] using this
      rw [List.countP_cons, ha, htl]
      simp

theorem findIdx?_none_of_all_false {α : Type} (pred : α → Bool) (l : List α)
    (h : ∀ i (hi : i < l.length), pred (l.get ⟨i, hi⟩) = false) :
    l.findIdx? pred = none := by
  rw [List.findIdx?_eq_none_iff]
  intro x hx
  obtain ⟨i, hget⟩ := List.get_of_mem hx
  rw [← hget]
  exact h i.1 i.2

theorem findIdx?_unique {α : Type} (pred : α → Bool) :
    ∀ (l : List α) (j : Nat) (hj : j < l.length),
      (∀ i (hi : i < l.length), pred (l.get ⟨i, hi⟩) = true ↔ i = j) →
      l.findIdx? pred = some j := by
  intro l
  induction l with
  | nil => intro j hj _; simp at hj
  | cons a tl ih =>
    intro j hj h
    rcases j with _ | j2
    · have ha : pred a = true := by
        have := h 0 (by simp)
        simpa using this
      simp [List.findIdx?_cons, ha]
    · have ha : pred a = false := by
        have := h 0 (by simp)
        simpa using this
      rw [List.findIdx?_cons, if_neg (by simp [ha])]
      rw [List.findIdx?_start_succ]
      have htl : tl.findIdx? pred = some j2 := by
        refine ih j2 (by simpa using hj) ?_
        intro i hi
        have := h (i + 1) (by simp; omega)
        simpa using this
      rw [htl]
      simp

/-- `Block.last` of a canonical block is its last entry's key. -/
theorem blockOfEntries_last (es : List (Bytes × Bytes)) (p : Nat)
    (hne : es ≠ [])
    (hlens : ∀ e ∈ es, e.1.length < 65536 ∧ e.2.length < 65536) :
    (blockOfEntries es p).last
      = some (es.get ⟨es.length - 1, by
          have := List.length_pos.mpr hne; omega⟩).1 := by
  have hn : 0 < es.length := List.length_pos.mpr hne
  obtain ⟨pos, h1, h2, _⟩ :=
    read_entry_at es p hlens (es.length - 1) (by omega)
  have hofflen : (blockOfEntries es p).offsets.length = es.length := by
    simp [blockOfEntries, entryOffsets_length]
  have hlast : (blockOfEntries es p).offsets.getLast? = some pos := by
    rw [List.getLast?_eq_getElem?, hofflen, ← List.get?_eq_getElem?]
    exact h1
  unfold Block.last
  rw [hlast]
  simpa using h2

theorem countP_prefix_closed {α : Type} (pred : α → Bool) :
    ∀ (l : List α),
      (∀ i j (hi : i < l.length) (hj : j < l.length), i < j →
        pred (l.get ⟨j, hj⟩) = true → pred (l.get ⟨i, hi⟩) = true) →
      ∀ i (hi : i < l.length), pred (l.get ⟨i, hi⟩) = true ↔ i < l.countP pred := by
  intro l
  induction l with
  | nil => intro _ i hi; simp at hi
  | cons a tl ih =>
    intro hpc i hi
    rcases ha : pred a with _ | _
    · have hall : ∀ x ∈ tl, ¬ (pred x = true) := by
        intro x hx
        obtain ⟨fi, hget⟩ := List.get_of_mem hx
        intro hpx
        have := hpc 0 (fi.1 + 1) (by simp) (by simp) (by omega)
          (by simp only [List.get_cons_succ]; rw [show tl.get ⟨fi.1, fi.2⟩ = x from hget]; exact hpx)
        simp [ha] at this
      have hcnt : (a :: tl).countP pred = 0 := by
        rw [List.countP_cons, ha]
        simp [List.countP_eq_zero.mpr hall]
      rw [hcnt]
      constructor
      · intro hp
        rcases i with _ | i2
        · simp [ha] at hp
        · exact absurd hp (hall (tl.get ⟨i2, by simpa using hi⟩) (List.get_mem _ _ _))
      · omega
    · have hcnt : (a :: tl).countP pred = tl.countP pred + 1 := by
        rw [List.countP_cons, ha]
        simp
      rw [hcnt]
      rcases i with _ | i2
      · simp [ha]
      · have hpc2 : ∀ i j (hi2 : i < tl.length) (hj : j < tl.length), i < j →
            pred (tl.get ⟨j, hj⟩) = true → pred (tl.get ⟨i, hi2⟩) = true := by
          intro i j hi2 hj hij hp
          have := hpc (i + 1) (j + 1) (by simp; omega) (by simp; omega) (by omega)
            (by simpa using hp)
          simpa using this
        have := ih hpc2 i2 (by simpa using hi)
        simpa [Nat.succ_lt_succ_iff] using this

/-! ## SST seek correctness (claim C7) -/

theorem sstwf_nmetas {ess : List (List (Bytes × Bytes))} {t : SsTable}
    (w : SstWF ess t) : t.block_metas.length = ess.length := by
  have := congrArg List.length w.hmetas
  simpa using this

theorem sstwf_fk {ess : List (List (Bytes × Bytes))} {t : SsTable}
    (w : SstWF ess t) (i : Nat) (hi : i < ess.length) :
    (t.block_metas.get ⟨i, by rw [sstwf_nmetas w]; exact hi⟩).first_key
      = ((ess.get ⟨i, hi⟩).head?.map (fun e => e.1)).getD [] := by
  have h1 := congrArg (fun l => l.get? i) w.hmetas
  simp only [List.get?_map] at h1
  rw [List.get?_eq_get (by rw [sstwf_nmetas w]; exact hi),
    List.get?_eq_get hi] at h1
  simpa using h1

theorem head_key_eq (es : List (Bytes × Bytes)) (h : es ≠ []) :
    ((es.head?.map (fun e => e.1)).getD [])
      = (es.get ⟨0, List.length_pos.mpr h⟩).1 := by
  cases es with
  | nil => exact absurd rfl h
  | cons e tl => rfl

theorem sstwf_cross {ess : List (List (Bytes × Bytes))} {t : SsTable}
    (w : SstWF ess t) (i j : Nat) (hi : i < ess.length) (hj : j < ess.length)
    (hij : i < j) :
    ∀ e1 ∈ ess.get ⟨i, hi⟩, ∀ e2 ∈ ess.get ⟨j, hj⟩, bytesLt e1.1 e2.1 := by
  have := List.pairwise_iff_get.mp w.hsortX ⟨i, hi⟩ ⟨j, hj⟩ (by simpa using hij)
  exact this

theorem sstwf_within {ess : List (List (Bytes × Bytes))} {t : SsTable}
    (w : SstWF ess t) (es : List (Bytes × Bytes)) (hes : es ∈ ess)
    (i j : Nat) (hi : i < es.length) (hj : j < es.length) (hij : i < j) :
    bytesLt (es.get ⟨i, hi⟩).1 (es.get ⟨j, hj⟩).1 := by
  have := List.pairwise_iff_get.mp (w.hsortIn es hes) ⟨i, hi⟩ ⟨j, hj⟩
    (by simpa using hij)
  exact this

/-- The head key of block `i` is `≤` every key in block `i` and `<` every
key of later blocks; and any key of block `j` is `>` head keys of blocks
`i ≤ j` … the ordering facts packaged for the search characterization:
the head key of block `i` is `< k` iff `i ≤ j`, where `k` lives in block
`j` at a positive entry index — and similar.  We inline these at use
sites instead. -/
theorem sstwf_fk_lt_of_le {ess : List (List (Bytes × Bytes))} {t : SsTable}
    (w : SstWF ess t) (j : Nat) (hj : j < ess.length)
    (ei : Nat) (hei : ei < (ess.get ⟨j, hj⟩).length) (k : Bytes)
    (hek : ((ess.get ⟨j, hj⟩).get ⟨ei, hei⟩).1 = k)
    (i : Nat) (hi : i < ess.length) :
    (i < j → bytesLt (((ess.get ⟨i, hi⟩).head?.map (fun e => e.1)).getD []) k)
    ∧ (j < i → bytesLt k (((ess.get ⟨i, hi⟩).head?.map (fun e => e.1)).getD []))
    ∧ (i = j → 0 < ei → bytesLt (((ess.get ⟨i, hi⟩).head?.map (fun e => e.1)).getD []) k) := by
  have hnei : ess.get ⟨i, hi⟩ ≠ [] := w.hne _ (List.get_mem _ _ _)
  have hnej : ess.get ⟨j, hj⟩ ≠ [] := w.hne _ (List.get_mem _ _ _)
  rw [head_key_eq _ hnei]
  refine ⟨?_, ?_, ?_⟩
  · intro hij
    have := sstwf_cross w i j hi hj hij
      ((ess.get ⟨i, hi⟩).get ⟨0, List.length_pos.mpr hnei⟩) (List.get_mem _ 0 _)
      ((ess.get ⟨j, hj⟩).get ⟨ei, hei⟩) (List.get_mem _ ei hei)
    rw [hek] at this
    exact this
  · intro hij
    have := sstwf_cross w j i hj hi hij
      ((ess.get ⟨j, hj⟩).get ⟨ei, hei⟩) (List.get_mem _ ei hei)
      ((ess.get ⟨i, hi⟩).get ⟨0, List.length_pos.mpr hnei⟩) (List.get_mem _ 0 _)
    rw [hek] at this
    exact this
  · intro hij h0
    subst hij
    have := sstwf_within w (ess.get ⟨i, hi⟩) (List.get_mem _ i hi) 0 ei
      (List.length_pos.mpr hnei) hei h0
    rw [hek] at this
    exact this

/-- `read_block` of a well-formed SST returns the canonical block. -/
theorem sstwf_read_block {ess : List (List (Bytes × Bytes))} {t : SsTable}
    (w : SstWF ess t) (j : Nat) (hj : j < ess.length) :
    ∃ pj, t.read_block j = some (blockOfEntries (ess.get ⟨j, hj⟩) pj) := by
  obtain ⟨ps, hps, hbl⟩ := w.hblocks
  refine ⟨ps.get ⟨j, by omega⟩, ?_⟩
  unfold SsTable.read_block
  rw [hbl, List.get?_eq_getElem?, List.getElem?_zipWith]
  rw [List.getElem?_eq_getElem hj, List.getElem?_eq_getElem (by omega : j < ps.length)]
  simp [List.get_eq_getElem]

/-- The last key of block `j` is `≥` any key in block `j`. -/
theorem sstwf_last_ge {ess : List (List (Bytes × Bytes))} {t : SsTable}
    (w : SstWF ess t) (j : Nat) (hj : j < ess.length)
    (ei : Nat) (hei : ei < (ess.get ⟨j, hj⟩).length) (k : Bytes)
    (hek : ((ess.get ⟨j, hj⟩).get ⟨ei, hei⟩).1 = k) :
    cmpBytes k ((ess.get ⟨j, hj⟩).get
      ⟨(ess.get ⟨j, hj⟩).length - 1, by omega⟩).1 ≠ .gt := by
  rcases Nat.lt_or_ge ei ((ess.get ⟨j, hj⟩).length - 1) with hc | hc
  · have hlt := sstwf_within w (ess.get ⟨j, hj⟩) (List.get_mem _ j hj) ei
      ((ess.get ⟨j, hj⟩).length - 1) hei (by omega) hc
    rw [hek] at hlt
    rw [bytesLt] at hlt
    intro hcontra
    rw [hlt] at hcontra
    simp at hcontra
  · have hei2 : ei = (ess.get ⟨j, hj⟩).length - 1 := by omega
    subst hei2
    rw [show ((ess.get ⟨j, hj⟩).get
        ⟨(ess.get ⟨j, hj⟩).length - 1, by omega⟩).1 = k from hek]
    rw [cmpBytes_self]
    simp

/-- When `k` is a key of block `j`, `find_block_idx` returns `j`. -/
theorem find_block_idx_mem {ess : List (List (Bytes × Bytes))} {t : SsTable}
    (w : SstWF ess t) (k : Bytes) (j : Nat) (hj : j < ess.length)
    (ei : Nat) (hei : ei < (ess.get ⟨j, hj⟩).length)
    (hek : ((ess.get ⟨j, hj⟩).get ⟨ei, hei⟩).1 = k) :
    t.find_block_idx k = j := by
  have nm := sstwf_nmetas w
  have horder := fun i hi => sstwf_fk_lt_of_le w j hj ei hei k hek i hi
  by_cases h0 : ei = 0
  · -- k is the head key of block j: exact binary-search hit
    subst h0
    have hchar : ∀ i (hi : i < t.block_metas.length),
        ((fun m => cmpBytes m.first_key k == Ordering.eq)
          (t.block_metas.get ⟨i, hi⟩)) = true ↔ i = j := by
      intro i hi
      have hi2 : i < ess.length := by omega
      show (cmpBytes (t.block_metas.get ⟨i, hi⟩).first_key k
        == Ordering.eq) = true ↔ i = j
      rw [sstwf_fk w i hi2]
      constructor
      · intro hp
        simp only [List.get_eq_getElem] at hp
        by_contra hne2
        rcases Nat.lt_or_ge i j with hc | hc
        · have hlt := (horder i hi2).1 hc
          rw [bytesLt] at hlt
          simp only [List.get_eq_getElem] at hlt
          rw [hlt] at hp
          exact absurd hp (by decide)
        · have hc2 : j < i := by omega
          have hlt := (horder i hi2).2.1 hc2
          have hgt := cmpBytes_gt_iff_lt.mpr hlt
          simp only [List.get_eq_getElem] at hgt
          rw [hgt] at hp
          exact absurd hp (by decide)
      · intro hij
        subst hij
        rw [head_key_eq _ (w.hne _ (List.get_mem _ i hi2))]
        have : ((ess.get ⟨i, hi2⟩).get ⟨0, List.length_pos.mpr
            (w.hne _ (List.get_mem _ i hi2))⟩).1 = k := hek
        rw [this, cmpBytes_self]
        rfl
    have hok : SsTable.binarySearchMetas t.block_metas k = .ok j := by
      unfold SsTable.binarySearchMetas
      rw [findIdx?_unique _ t.block_metas j (by omega) hchar]
    simp [SsTable.find_block_idx, SsTable.findBlockIdxR, hok]
  · -- k sits at a positive entry index: binary search misses and the
    -- post-processing pins block j
    have h0p : 0 < ei := by omega
    have hnone : t.block_metas.findIdx?
        (fun m => cmpBytes m.first_key k == Ordering.eq) = none := by
      refine findIdx?_none_of_all_false _ _ ?_
      intro i hi
      have hi2 : i < ess.length := by omega
      show (cmpBytes (t.block_metas.get ⟨i, hi⟩).first_key k
        == Ordering.eq) = false
      rw [sstwf_fk w i hi2]
      rcases Nat.lt_trichotomy i j with hc | hc | hc
      · have hlt := (horder i hi2).1 hc
        rw [bytesLt] at hlt
        simp only [List.get_eq_getElem] at hlt ⊢
        rw [hlt]
        decide
      · have hlt := (horder i hi2).2.2 hc h0p
        rw [bytesLt] at hlt
        simp only [List.get_eq_getElem] at hlt ⊢
        rw [hlt]
        decide
      · have hlt := (horder i hi2).2.1 hc
        have hgt := cmpBytes_gt_iff_lt.mpr hlt
        simp only [List.get_eq_getElem] at hgt ⊢
        rw [hgt]
        decide
    have hcount : t.block_metas.countP
        (fun m => cmpBytes m.first_key k == Ordering.lt) = j + 1 := by
      refine countP_boundary _ t.block_metas (j + 1) (by omega) ?_
      intro i hi
      have hi2 : i < ess.length := by omega
      show (cmpBytes (t.block_metas.get ⟨i, hi⟩).first_key k
        == Ordering.lt) = true ↔ i < j + 1
      rw [sstwf_fk w i hi2]
      constructor
      · intro hp
        simp only [List.get_eq_getElem] at hp
        by_contra hc
        have hc2 : j < i := by omega
        have hlt := (horder i hi2).2.1 hc2
        have hgt := cmpBytes_gt_iff_lt.mpr hlt
        simp only [List.get_eq_getElem] at hgt
        rw [hgt] at hp
        exact absurd hp (by decide)
      · intro hc
        rcases Nat.lt_or_ge i j with hc2 | hc2
        · have hlt := (horder i hi2).1 hc2
          rw [bytesLt] at hlt
          simp only [List.get_eq_getElem] at hlt ⊢
          rw [hlt]
          decide
        · have hij : i = j := by omega
          have hlt := (horder i hi2).2.2 hij h0p
          rw [bytesLt] at hlt
          simp only [List.get_eq_getElem] at hlt ⊢
          rw [hlt]
          decide
    have herr : SsTable.binarySearchMetas t.block_metas k = .error (j + 1) := by
      unfold SsTable.binarySearchMetas
      rw [hnone, hcount]
    by_cases hlastblk : j + 1 = ess.length
    · -- j is the last block: insert == num_of_blocks
      simp [SsTable.find_block_idx, SsTable.findBlockIdxR, herr,
        SsTable.num_of_blocks, nm, hlastblk]
      omega
    · -- the tie-break reads block j's last key, which is ≥ k
      have hj1 : j + 1 < ess.length := by omega
      have hmeta1 : t.block_metas.get? (j + 1)
          = some (t.block_metas.get ⟨j + 1, by omega⟩) :=
        List.get?_eq_get (by omega)
      have hfk1 : (t.block_metas.get ⟨j + 1, by omega⟩).first_key
          = ((ess.get ⟨j + 1, hj1⟩).head?.map (fun e => e.1)).getD [] :=
        sstwf_fk w (j + 1) hj1
      have hgt1 : cmpBytes (t.block_metas.get ⟨j + 1, by omega⟩).first_key k
          = .gt := by
        rw [hfk1]
        exact cmpBytes_gt_iff_lt.mpr ((horder (j + 1) hj1).2.1 (by omega))
      obtain ⟨pj, hrb⟩ := sstwf_read_block w j hj
      have hlast := blockOfEntries_last (ess.get ⟨j, hj⟩) pj
        (w.hne _ (List.get_mem _ j hj))
        (fun e he => w.hlens _ (List.get_mem _ j hj) e he)
      have hge := sstwf_last_ge w j hj ei hei k hek
      simp only [SsTable.find_block_idx, SsTable.findBlockIdxR, herr]
      rw [if_neg (by simp [SsTable.num_of_blocks, nm]; omega)]
      rw [hmeta1]
      simp only [hgt1]
      have hread : (t.read_block_cached (j + 1 - 1)).bind Block.last
          = some (((ess.get ⟨j, hj⟩).get
            ⟨(ess.get ⟨j, hj⟩).length - 1, by
              have := List.length_pos.mpr (w.hne _ (List.get_mem _ j hj))
              omega⟩).1) := by
        have : j + 1 - 1 = j := by omega
        rw [this]
        unfold SsTable.read_block_cached
        rw [hrb]
        simpa using hlast
      rw [hread]
      have hgeb : (cmpBytes k ((ess.get ⟨j, hj⟩).get
          ⟨(ess.get ⟨j, hj⟩).length - 1, by omega⟩).1 != Ordering.gt) = true := by
        rcases hcv : cmpBytes k ((ess.get ⟨j, hj⟩).get
            ⟨(ess.get ⟨j, hj⟩).length - 1, by omega⟩).1 with _ | _ | _
        · rfl
        · rfl
        · exact absurd hcv hge
      split_ifs with h1
      · rfl
      · exact absurd rfl h1

/-- When `k` is absent from every block of a well-formed SST,
`find_block_idx` picks the bracketing block: the last block when every
first key is `< k`; otherwise, with `p` the insertion point (the number
of first keys `< k`), block `p-1` when its last key is `≥ k`, else block
`p` (Nat subtraction realizes the code's `max(0, p-1)`). -/
theorem find_block_idx_absent {ess : List (List (Bytes × Bytes))} {t : SsTable}
    (w : SstWF ess t) (k : Bytes) (hn : 0 < ess.length)
    (habs : ∀ es ∈ ess, ∀ e ∈ es, e.1 ≠ k)
    (p : Nat)
    (hp : p = t.block_metas.countP
      (fun m => cmpBytes m.first_key k == Ordering.lt)) :
    t.find_block_idx k =
      if p = ess.length then ess.length - 1
      else if cmpBytes k (((ess.getD (p - 1) []).getLast?.map
          (fun e => e.1)).getD []) != Ordering.gt
        then p - 1 else p := by
  have nm := sstwf_nmetas w
  have hhead : ∀ i (hi : i < ess.length),
      (t.block_metas.get ⟨i, by omega⟩).first_key
        = ((ess.get ⟨i, hi⟩).get ⟨0, List.length_pos.mpr
            (w.hne _ (List.get_mem _ i hi))⟩).1 := by
    intro i hi
    rw [sstwf_fk w i hi, head_key_eq _ (w.hne _ (List.get_mem _ i hi))]
  have hnek : ∀ i (hi : i < ess.length),
      (t.block_metas.get ⟨i, by omega⟩).first_key ≠ k := by
    intro i hi
    rw [hhead i hi]
    exact habs _ (List.get_mem _ i hi) _ (List.get_mem _ 0 _)
  have hasc : ∀ i j (hi : i < ess.length) (hj : j < ess.length), i < j →
      cmpBytes (t.block_metas.get ⟨i, by omega⟩).first_key
        (t.block_metas.get ⟨j, by omega⟩).first_key = .lt := by
    intro i j hi hj hij
    rw [hhead i hi, hhead j hj]
    exact sstwf_cross w i j hi hj hij _ (List.get_mem _ 0 _)
      _ (List.get_mem _ 0 _)
  have hiff := countP_prefix_closed
      (fun m => cmpBytes m.first_key k == Ordering.lt) t.block_metas
      (by
        intro i j hi hj hij hpj
        have hi2 : i < ess.length := by omega
        have hj2 : j < ess.length := by omega
        have hjlt : cmpBytes (t.block_metas.get ⟨j, hj⟩).first_key k
            = .lt := by
          have hpj2 : (cmpBytes (t.block_metas.get ⟨j, hj⟩).first_key k
              == Ordering.lt) = true := hpj
          rcases hcv2 : cmpBytes (t.block_metas.get ⟨j, hj⟩).first_key k
              with _ | _ | _
          · rfl
          · rw [hcv2] at hpj2
            exact absurd hpj2 (by decide)
          · rw [hcv2] at hpj2
            exact absurd hpj2 (by decide)
        show (cmpBytes (t.block_metas.get ⟨i, hi⟩).first_key k
          == Ordering.lt) = true
        rw [cmpBytes_lt_trans (hasc i j hi2 hj2 hij) hjlt]
        rfl)
  rw [← hp] at hiff
  have hple : p ≤ ess.length := by
    rw [hp, ← nm]
    exact List.countP_le_length _
  have hnone : t.block_metas.findIdx?
      (fun m => cmpBytes m.first_key k == Ordering.eq) = none := by
    refine findIdx?_none_of_all_false _ _ ?_
    intro i hi
    have hi2 : i < ess.length := by omega
    show (cmpBytes (t.block_metas.get ⟨i, hi⟩).first_key k
      == Ordering.eq) = false
    rcases hcv : cmpBytes (t.block_metas.get ⟨i, hi⟩).first_key k with _ | _ | _
    · rfl
    · exact absurd (eq_of_cmpBytes_eq hcv) (hnek i hi2)
    · rfl
  have herr : SsTable.binarySearchMetas t.block_metas k = .error p := by
    unfold SsTable.binarySearchMetas
    rw [hnone, hp]
  by_cases hcase : p = ess.length
  · rw [if_pos hcase]
    simp only [SsTable.find_block_idx, SsTable.findBlockIdxR, herr]
    rw [if_pos (show p = t.num_of_blocks by
      unfold SsTable.num_of_blocks; omega)]
    show p - 1 = ess.length - 1
    omega
  · have hplt : p < ess.length := by omega
    rw [if_neg hcase]
    have hgtp : cmpBytes (t.block_metas.get ⟨p, by omega⟩).first_key k
        = .gt := by
      have h1 := hiff p (by omega)
      rcases hcv : cmpBytes (t.block_metas.get ⟨p, by omega⟩).first_key k
          with _ | _ | _
      · have hlt2 : ((fun m => cmpBytes m.first_key k == Ordering.lt)
            (t.block_metas.get ⟨p, by omega⟩)) = true := by
          show (cmpBytes (t.block_metas.get ⟨p, by omega⟩).first_key k
            == Ordering.lt) = true
          rw [hcv]
          rfl
        have := h1.mp hlt2
        omega
      · exact absurd (eq_of_cmpBytes_eq hcv) (hnek p hplt)
      · rfl
    have hmeta : t.block_metas.get? p
        = some (t.block_metas.get ⟨p, by omega⟩) :=
      List.get?_eq_get (by omega)
    have hq : p - 1 < ess.length := by omega
    have hbne : ess.get ⟨p - 1, hq⟩ ≠ [] := w.hne _ (List.get_mem _ _ hq)
    have hblen : 0 < (ess.get ⟨p - 1, hq⟩).length := List.length_pos.mpr hbne
    obtain ⟨pq, hrb⟩ := sstwf_read_block w (p - 1) hq
    have hlastB := blockOfEntries_last (ess.get ⟨p - 1, hq⟩) pq hbne
      (fun e he => w.hlens _ (List.get_mem _ _ hq) e he)
    have hread : (t.read_block_cached (p - 1)).bind Block.last
        = some (((ess.get ⟨p - 1, hq⟩).get
          ⟨(ess.get ⟨p - 1, hq⟩).length - 1, by omega⟩).1) := by
      unfold SsTable.read_block_cached
      rw [hrb]
      simpa using hlastB
    have hlk : (((ess.getD (p - 1) []).getLast?.map (fun e => e.1)).getD [])
        = ((ess.get ⟨p - 1, hq⟩).get
          ⟨(ess.get ⟨p - 1, hq⟩).length - 1, by omega⟩).1 := by
      rw [List.getD_eq_getElem ess [] hq]
      rw [show ess[p - 1] = ess.get ⟨p - 1, hq⟩ from by
        simp [List.get_eq_getElem]]
      rw [List.getLast?_eq_getElem?, List.getElem?_eq_getElem
        (show (ess.get ⟨p - 1, hq⟩).length - 1
          < (ess.get ⟨p - 1, hq⟩).length by omega)]
      simp [List.get_eq_getElem]
    rw [hlk]
    simp only [SsTable.find_block_idx, SsTable.findBlockIdxR, herr]
    rw [if_neg (show ¬ p = t.num_of_blocks by
      unfold SsTable.num_of_blocks; omega)]
    rw [hmeta]
    simp only [hgtp]
    rw [hread]
    rcases hcv : cmpBytes k ((ess.get ⟨p - 1, hq⟩).get
        ⟨(ess.get ⟨p - 1, hq⟩).length - 1, by omega⟩).1 with _ | _ | _ <;>
      simp only [List.get_eq_getElem] at hcv <;> simp [hcv] <;> rfl

theorem wfC7 : SstWF essC7 sstC7 :=
  { hne := by decide
    hlens := by decide
    hsortIn := by decide
    hsortX := by decide
    hblocks := ⟨[0, 0], by decide, rfl⟩
    hmetas := by decide }

/-- C7: for an SST built from a sorted batch (`SstWF`), `find_block_idx`
returns the index of the unique block containing the probe key when it is
present; when it is absent, with `p` the insertion point (the number of
first keys `< k`), it returns the last block when `p` equals the number
of blocks, otherwise block `p-1` when that block's last key is `≥ k`,
else block `p` (Nat subtraction realizing the code's `max(0, p-1)`). -/
theorem find_block_idx_brackets {ess : List (List (Bytes × Bytes))}
    {t : SsTable} (w : SstWF ess t) (k : Bytes) (hn : 0 < ess.length) :
    (∀ (j : Nat) (hj : j < ess.length) (ei : Nat)
        (hei : ei < (ess.get ⟨j, hj⟩).length),
        ((ess.get ⟨j, hj⟩).get ⟨ei, hei⟩).1 = k → t.find_block_idx k = j)
    ∧ ((∀ es ∈ ess, ∀ e ∈ es, e.1 ≠ k) →
        ∀ p : Nat, p = t.block_metas.countP
            (fun m => cmpBytes m.first_key k == Ordering.lt) →
          t.find_block_idx k =
            if p = ess.length then ess.length - 1
            else if cmpBytes k (((ess.getD (p - 1) []).getLast?.map
                (fun e => e.1)).getD []) != Ordering.gt
              then p - 1 else p) :=
  ⟨fun j hj ei hei hek => find_block_idx_mem w k j hj ei hei hek,
    fun habs p hp => find_block_idx_absent w k hn habs p hp⟩

/-- `find_block_idx` on the concrete SST `sstC7`: the present key `b`
lands in block 0 and the absent key `c` is bracketed into block 1. -/
theorem find_block_idx_brackets_witness :
    sstC7.find_block_idx [98] = 0 ∧ sstC7.find_block_idx [99] = 1 := by
  have h1 := (find_block_idx_brackets wfC7 [98] (by decide)).1 0 (by decide)
    1 (by decide) (by decide)
  have h2 := (find_block_idx_brackets wfC7 [99] (by decide)).2 (by decide)
    1 (by decide)
  refine ⟨h1, ?_⟩
  rw [h2]
  decide

/-! ## Block round-trip machinery (claim C9) -/

theorem entriesData_cons (e : Bytes × Bytes) (es : List (Bytes × Bytes)) :
    entriesData (e :: es) = entryBytes e.1 e.2 ++ entriesData es := by
  simp [entriesData]

theorem entriesData_length_ge :
    ∀ es : List (Bytes × Bytes), 4 * es.length ≤ (entriesData es).length := by
  intro es
  induction es with
  | nil => simp [entriesData]
  | cons e es ih =>
    rw [entriesData_cons, List.length_append, entryBytes_length]
    simp only [List.length_cons]
    omega

theorem entriesData_entry_le :
    ∀ (es : List (Bytes × Bytes)) (e : Bytes × Bytes), e ∈ es →
      e.1.length + e.2.length + 4 ≤ (entriesData es).length := by
  intro es
  induction es with
  | nil => intro e he; simp at he
  | cons a es ih =>
    intro e he
    rw [entriesData_cons, List.length_append, entryBytes_length]
    rcases List.mem_cons.mp he with h | h
    · subst h; omega
    · have := ih e h; omega

theorem entryOffsets_mem_le :
    ∀ (es : List (Bytes × Bytes)) (acc : Nat) (o : Nat),
      o ∈ entryOffsets es acc → o ≤ acc + (entriesData es).length := by
  intro es
  induction es with
  | nil =>
    intro acc o ho
    rw [show entryOffsets [] acc = [] from rfl] at ho
    exact absurd ho (List.not_mem_nil o)
  | cons e es ih =>
    intro acc o ho
    rw [entriesData_cons, List.length_append]
    rw [entryOffsets] at ho
    rcases List.mem_cons.mp ho with h | h
    · omega
    · have := ih (acc + (entryBytes e.1 e.2).length) o h
      omega

theorem intToU16_lt (i : Int) : intToU16 i < 65536 := by
  unfold intToU16
  have h1 : 0 ≤ i % 65536 := Int.emod_nonneg i (by norm_num)
  have h2 : i % 65536 < 65536 := Int.emod_lt_of_pos i (by norm_num)
  omega

theorem chunksToU16_flatMap :
    ∀ os : List Nat, Block.chunksToU16 (os.flatMap putU16le)
      = some (os.map (fun o => o % 65536)) := by
  intro os
  induction os with
  | nil => rfl
  | cons o os ih =>
    show Block.chunksToU16 (o % 256 :: (o / 256 % 256 :: os.flatMap putU16le))
      = some (o % 65536 :: os.map (fun o => o % 65536))
    rw [show Block.chunksToU16 (o % 256 :: (o / 256 % 256 :: os.flatMap putU16le))
      = (Block.chunksToU16 (os.flatMap putU16le)).map
          (fun l => (o % 256 + 256 * (o / 256 % 256)) :: l) from rfl]
    rw [ih]
    rw [show (some (os.map (fun o => o % 65536))).map
        (fun l => (o % 256 + 256 * (o / 256 % 256)) :: l)
      = some ((o % 256 + 256 * (o / 256 % 256))
          :: os.map (fun o => o % 65536)) from rfl]
    congr 2
    omega

theorem addList_accepted :
    ∀ (es : List (Bytes × Bytes)) (b : BlockBuilder), b.cap ≤ 65536 →
      (addList b es).1 = true →
      (addList b es).2 = ⟨b.cap, b.data ++ entriesData es,
        b.offsets ++ entryOffsets es b.data.length⟩ := by
  intro es
  induction es with
  | nil =>
    intro b _ _
    simp [addList, entriesData, entryOffsets]
  | cons e es ih =>
    intro b hcap hacc
    simp only [addList, Bool.and_eq_true] at hacc
    simp only [addList]
    obtain ⟨h1, h2⟩ := hacc
    by_cases hok : b.cap < b.data.length + (2 + e.1.length + 2 + e.2.length) + 2
    · have hadd : b.add e.1 e.2 = (false, b) := by
        unfold BlockBuilder.add
        show (if b.cap < b.data.length
            + (2 + e.1.length + 2 + e.2.length) + 2 then (false, b)
          else (true, ⟨b.cap, b.data ++ entryBytes e.1 e.2,
            b.offsets ++ [b.data.length % 65536]⟩)) = (false, b)
        rw [if_pos hok]
      rw [hadd] at h1
      simp at h1
    · have hadd : b.add e.1 e.2 = (true, ⟨b.cap,
          b.data ++ entryBytes e.1 e.2,
          b.offsets ++ [b.data.length % 65536]⟩) := by
        unfold BlockBuilder.add
        show (if b.cap < b.data.length
            + (2 + e.1.length + 2 + e.2.length) + 2 then (false, b)
          else (true, ⟨b.cap, b.data ++ entryBytes e.1 e.2,
            b.offsets ++ [b.data.length % 65536]⟩)) = _
        rw [if_neg hok]
      rw [hadd] at h2 ⊢
      have hmod : b.data.length % 65536 = b.data.length :=
        Nat.mod_eq_of_lt (by omega)
      rw [ih _ (by simpa using hcap) h2]
      rw [entriesData_cons, entryOffsets]
      simp only [hmod, List.length_append, List.append_assoc,
        List.cons_append, List.nil_append, List.singleton_append]

theorem addList_data_le :
    ∀ (es : List (Bytes × Bytes)) (b : BlockBuilder), es ≠ [] →
      (addList b es).1 = true →
      b.data.length + (entriesData es).length + 2 ≤ b.cap := by
  intro es
  induction es with
  | nil => intro b h _; exact absurd rfl h
  | cons e es ih =>
    intro b _ hacc
    simp only [addList, Bool.and_eq_true] at hacc
    obtain ⟨h1, h2⟩ := hacc
    by_cases hok : b.cap < b.data.length + (2 + e.1.length + 2 + e.2.length) + 2
    · have hadd : b.add e.1 e.2 = (false, b) := by
        unfold BlockBuilder.add
        show (if b.cap < b.data.length
            + (2 + e.1.length + 2 + e.2.length) + 2 then (false, b)
          else (true, ⟨b.cap, b.data ++ entryBytes e.1 e.2,
            b.offsets ++ [b.data.length % 65536]⟩)) = (false, b)
        rw [if_pos hok]
      rw [hadd] at h1
      simp at h1
    · have hadd : b.add e.1 e.2 = (true, ⟨b.cap,
          b.data ++ entryBytes e.1 e.2,
          b.offsets ++ [b.data.length % 65536]⟩) := by
        unfold BlockBuilder.add
        show (if b.cap < b.data.length
            + (2 + e.1.length + 2 + e.2.length) + 2 then (false, b)
          else (true, ⟨b.cap, b.data ++ entryBytes e.1 e.2,
            b.offsets ++ [b.data.length % 65536]⟩)) = _
        rw [if_neg hok]
      rw [hadd] at h2
      rw [entriesData_cons, List.length_append, entryBytes_length]
      cases es with
      | nil => simp [entriesData]; omega
      | cons e2 es2 =>
        have hih := ih _ (by simp) h2
        simp only [List.length_append] at hih
        have hg := entryBytes_length e.1 e.2
        omega

/-- The entry walk of `Block::decode`: starting from an already-rebuilt
prefix `pre`, walking `es.length` entries over a buffer that continues
with the encoded entries reconstructs exactly those bytes, regardless of
what follows them. -/
theorem decodeEntriesLoop_entries :
    ∀ (es : List (Bytes × Bytes)) (pre tailb : List Nat),
      (∀ e ∈ es, e.1.length < 65536 ∧ e.2.length < 65536) →
      Block.decodeEntriesLoop (pre ++ (entriesData es ++ tailb)) es.length pre
        = some (pre ++ entriesData es) := by
  intro es
  induction es with
  | nil =>
    intro pre tailb _
    rw [show entriesData [] = [] from rfl]
    show some pre = some (pre ++ [])
    rw [List.append_nil]
  | cons e es ih =>
    intro pre tailb hlens
    obtain ⟨hk, hv⟩ := hlens e (List.mem_cons_self e es)
    have heb : entriesData (e :: es) ++ tailb
        = putU16le e.1.length ++ (e.1 ++ (putU16le e.2.length
            ++ (e.2 ++ (entriesData es ++ tailb)))) := by
      rw [entriesData_cons]
      simp [entryBytes, List.append_assoc]
    rw [heb]
    have h1 : readU16At (pre ++ (putU16le e.1.length ++ (e.1
        ++ (putU16le e.2.length ++ (e.2 ++ (entriesData es ++ tailb))))))
        pre.length = some e.1.length := by
      rw [readU16At_append, readU16At_putU16le _ _ hk]
    have h2 : sliceRange (pre ++ (putU16le e.1.length ++ (e.1
        ++ (putU16le e.2.length ++ (e.2 ++ (entriesData es ++ tailb))))))
        pre.length (2 + e.1.length)
        = some (putU16le e.1.length ++ e.1) := by
      rw [sliceRange_append _ _ _ (by simp [putU16le]; omega)]
      congr 1
      rw [show (2 + e.1.length) = (putU16le e.1.length ++ e.1).length from by
        simp [putU16le]; omega]
      rw [← List.append_assoc, List.take_left]
    have h3 : readU16At (pre ++ (putU16le e.1.length ++ (e.1
        ++ (putU16le e.2.length ++ (e.2 ++ (entriesData es ++ tailb))))))
        (pre ++ (putU16le e.1.length ++ e.1)).length = some e.2.length := by
      conv_lhs => rw [show pre ++ (putU16le e.1.length ++ (e.1
        ++ (putU16le e.2.length ++ (e.2 ++ (entriesData es ++ tailb)))))
        = (pre ++ (putU16le e.1.length ++ e.1)) ++ (putU16le e.2.length
            ++ (e.2 ++ (entriesData es ++ tailb))) from by
          simp [List.append_assoc]]
      rw [readU16At_append, readU16At_putU16le _ _ hv]
    have h4 : sliceRange (pre ++ (putU16le e.1.length ++ (e.1
        ++ (putU16le e.2.length ++ (e.2 ++ (entriesData es ++ tailb))))))
        (pre ++ (putU16le e.1.length ++ e.1)).length (2 + e.2.length)
        = some (putU16le e.2.length ++ e.2) := by
      conv_lhs => rw [show pre ++ (putU16le e.1.length ++ (e.1
        ++ (putU16le e.2.length ++ (e.2 ++ (entriesData es ++ tailb)))))
        = (pre ++ (putU16le e.1.length ++ e.1)) ++ (putU16le e.2.length
            ++ (e.2 ++ (entriesData es ++ tailb))) from by
          simp [List.append_assoc]]
      rw [sliceRange_append _ _ _ (by simp [putU16le]; omega)]
      congr 1
      rw [show (2 + e.2.length) = (putU16le e.2.length ++ e.2).length from by
        simp [putU16le]; omega]
      rw [← List.append_assoc, List.take_left]
    show Block.decodeEntriesLoop _ (es.length + 1) pre = _
    rw [Block.decodeEntriesLoop]
    simp only [h1, h2, h3, h4, Option.pure_def, Option.bind_eq_bind,
      Option.some_bind]
    rw [show (pre ++ (putU16le e.1.length ++ e.1)) ++ (putU16le e.2.length
        ++ e.2) = pre ++ entryBytes e.1 e.2 from by
      simp [entryBytes, List.append_assoc]]
    rw [show pre ++ (putU16le e.1.length ++ (e.1 ++ (putU16le e.2.length
        ++ (e.2 ++ (entriesData es ++ tailb)))))
      = (pre ++ entryBytes e.1 e.2) ++ (entriesData es ++ tailb) from by
      simp [entryBytes, List.append_assoc]]
    rw [ih (pre ++ entryBytes e.1 e.2) tailb
      (fun e2 he2 => hlens e2 (List.mem_cons_of_mem e he2))]
    rw [entriesData_cons]
    simp [List.append_assoc]

theorem map_mod_eq_self :
    ∀ os : List Nat, (∀ o ∈ os, o < 65536) →
      os.map (fun o => o % 65536) = os := by
  intro os
  induction os with
  | nil => intro _; rfl
  | cons o os ih =>
    intro h
    simp only [List.map_cons]
    rw [Nat.mod_eq_of_lt (h o (by simp)),
      ih (fun o2 ho2 => h o2 (by simp [ho2]))]

/-- Core round-trip: decoding the encoding of a block whose data section
is a well-formed entry section, whose offset count equals the entry count
and whose stored quantities all fit in `u16`, returns the block itself. -/
theorem decode_encode (b : Block) (es : List (Bytes × Bytes))
    (hdata : b.data = entriesData es)
    (hcount : b.offsets.length = es.length)
    (hlens : ∀ e ∈ es, e.1.length < 65536 ∧ e.2.length < 65536)
    (hn : es.length < 65536)
    (hoffb : ∀ o ∈ b.offsets, o < 65536)
    (hpad : b.padding < 65536) :
    Block.decode (Block.encode b) = some b := by
  have hflatlen : (b.offsets.flatMap putU16le).length = 2 * es.length := by
    rw [length_flatMap_putU16le, hcount]
  have hlen := encode_length b
  have hdlen : b.data.length = (entriesData es).length := by rw [hdata]
  have hc : readU16At (Block.encode b) ((Block.encode b).length - 2)
      = some es.length := by
    rw [show Block.encode b
        = (b.data ++ List.replicate b.padding 0 ++ b.offsets.flatMap putU16le)
          ++ putU16le b.offsets.length from rfl]
    have hP : ((b.data ++ List.replicate b.padding 0
        ++ b.offsets.flatMap putU16le) ++ putU16le b.offsets.length).length - 2
        = (b.data ++ List.replicate b.padding 0
            ++ b.offsets.flatMap putU16le).length := by
      simp [putU16le]
      omega
    rw [hP]
    rw [readU16At_append]
    rw [show putU16le b.offsets.length
      = putU16le b.offsets.length ++ [] from (List.append_nil _).symm]
    rw [readU16At_putU16le _ _ (by omega), hcount]
  have htail : Block.encode b = entriesData es
      ++ (List.replicate b.padding 0 ++ (b.offsets.flatMap putU16le
          ++ putU16le b.offsets.length)) := by
    rw [show Block.encode b = b.data ++ List.replicate b.padding 0
        ++ b.offsets.flatMap putU16le ++ putU16le b.offsets.length from rfl,
      hdata]
    simp [List.append_assoc]
  have hloop : Block.decodeEntriesLoop (Block.encode b) es.length []
      = some (entriesData es) := by
    have h := decodeEntriesLoop_entries es []
      (List.replicate b.padding 0 ++ (b.offsets.flatMap putU16le
        ++ putU16le b.offsets.length)) hlens
    rw [List.nil_append, List.nil_append] at h
    rw [htail]
    exact h
  have hoffslice : sliceRange (Block.encode b)
      ((Block.encode b).length - 2 - es.length * 2) (es.length * 2)
      = some (b.offsets.flatMap putU16le) := by
    have hpos : (Block.encode b).length - 2 - es.length * 2
        = (b.data ++ List.replicate b.padding 0).length := by
      simp only [List.length_append, List.length_replicate]
      omega
    rw [hpos]
    rw [show Block.encode b
        = (b.data ++ List.replicate b.padding 0)
          ++ (b.offsets.flatMap putU16le ++ putU16le b.offsets.length) from by
      rw [show Block.encode b = b.data ++ List.replicate b.padding 0
          ++ b.offsets.flatMap putU16le ++ putU16le b.offsets.length from rfl]
      simp [List.append_assoc]]
    rw [sliceRange_append _ _ _ (by simp [putU16le, hflatlen]; omega)]
    congr 1
    rw [show es.length * 2 = (b.offsets.flatMap putU16le).length from by
      rw [hflatlen]; omega]
    exact List.take_left _ _
  have hchunks : Block.chunksToU16 (b.offsets.flatMap putU16le)
      = some b.offsets := by
    rw [chunksToU16_flatMap, map_mod_eq_self b.offsets hoffb]
  unfold Block.decode
  rw [if_pos (show 2 ≤ (Block.encode b).length from by omega)]
  simp only [hc, Option.pure_def, Option.bind_eq_bind, Option.some_bind]
  rw [hloop]
  simp only [Option.some_bind]
  rw [if_pos (show 2 + es.length * 2 ≤ (Block.encode b).length from by omega)]
  simp only [hoffslice, Option.some_bind]
  simp only [hchunks, Option.some_bind]
  rw [if_pos (show (entriesData es).length
      + (b.offsets.flatMap putU16le).length + 2 ≤ (Block.encode b).length
    from by omega)]
  have hpadeq : (Block.encode b).length - (entriesData es).length
      - (b.offsets.flatMap putU16le).length - 2 = b.padding := by
    omega
  rw [hpadeq, Nat.mod_eq_of_lt hpad, ← hdata]

/-- C9: block round-trip.  For every sorted batch of (key, value) pairs
that fits in one block (every `BlockBuilder::add` accepted, capacity in
the `u16` range), `Block::decode (Block::encode ..)` on the built block
returns the block itself: the same entries in the same order, the same
offset table and the same padding. -/
theorem block_roundtrip (cap : Nat) (es : List (Bytes × Bytes))
    (hsort : es.Pairwise (fun e1 e2 => bytesLt e1.1 e2.1))
    (hcap : cap ≤ 65536)
    (hfits : (addList (BlockBuilder.new cap) es).1 = true) :
    Block.decode (Block.encode ((addList (BlockBuilder.new cap) es).2.build))
      = some ((addList (BlockBuilder.new cap) es).2.build) := by
  have hb := addList_accepted es (BlockBuilder.new cap) hcap hfits
  have hb2 : (addList (BlockBuilder.new cap) es).2
      = ⟨cap, entriesData es, entryOffsets es 0⟩ := by
    rw [hb]
    simp [BlockBuilder.new]
  refine decode_encode _ es ?_ ?_ ?_ ?_ ?_ ?_
  · rw [hb2]
    rfl
  · rw [hb2]
    exact entryOffsets_length es 0
  · intro e he
    have h1 := entriesData_entry_le es e he
    have h2 := addList_data_le es (BlockBuilder.new cap)
      (by intro hnil; rw [hnil] at he; exact absurd he (List.not_mem_nil e))
      hfits
    simp [BlockBuilder.new] at h2
    omega
  · cases es with
    | nil => decide
    | cons e es2 =>
      have h2 := addList_data_le (e :: es2) (BlockBuilder.new cap)
        (by simp) hfits
      have h3 := entriesData_length_ge (e :: es2)
      simp [BlockBuilder.new] at h2
      omega
  · have hoffs : ((addList (BlockBuilder.new cap) es).2.build).offsets
        = entryOffsets es 0 := by
      rw [hb2]
      rfl
    intro o ho
    rw [hoffs] at ho
    have h1 := entryOffsets_mem_le es 0 o ho
    cases es with
    | nil =>
      rw [show entryOffsets ([] : List (Bytes × Bytes)) 0 = [] from rfl] at ho
      exact absurd ho (List.not_mem_nil o)
    | cons e es2 =>
      have h2 := addList_data_le (e :: es2) (BlockBuilder.new cap)
        (by simp) hfits
      simp [BlockBuilder.new] at h2
      omega
  · exact intToU16_lt _

/-- Concrete round-trip: the block built from entries `a ↦ 1`, `b ↦ 2`
at capacity 64 decodes from its own encoding. -/
theorem block_roundtrip_witness :
    Block.decode (Block.encode ((addList (BlockBuilder.new 64)
        [([97], [49]), ([98], [50])]).2.build))
      = some ((addList (BlockBuilder.new 64)
        [([97], [49]), ([98], [50])]).2.build) :=
  block_roundtrip 64 [([97], [49]), ([98], [50])]
    (by decide) (by decide) (by decide)
